import Mathlib

/-!
# Tools naming, listing and resolution (juju)

A shallow embedding of

* `environs/tools/storage.go` (`StorageName`, `storagePrefix`, `ReadList`),
* `tools/tools.go` (`Tools`),
* `environs/tools.go` (`findToolsPath`, `findTools`, the extraction loop of `GetTools`),

followed by the properties proved about them.

Go strings are modelled by their sequence of characters.  Packages used by the sources
that are not part of the embedded files (`version`, `arch`, the store behind
`storage.StorageReader`, `os.PathSeparator`) are taken as parameters.
-/

set_option autoImplicit false

namespace Juju

/-- A Go string, as the sequence of its characters.  The string operations the sources use
(prefix and suffix tests, slicing at the length of a matched prefix and four before the
end of a matched suffix, substring search, replacing the path separator) give the same
result on the bytes and on the characters of a well-formed UTF-8 string. -/
abbrev GoString := List Char

/-! ## Go standard library helpers used by the sources -/

/-- Go `strings.HasPrefix(s, p)`. -/
def hasPrefix (s p : GoString) : Bool := p.isPrefixOf s

/-- Go `strings.HasSuffix(s, p)`. -/
def hasSuffix (s p : GoString) : Bool := p.isSuffixOf s

/-- Go slice expression `s[lo:hi]`; `none` stands for the run-time panic raised when the
bounds are out of range. -/
def goSlice (s : GoString) (lo hi : Int) : Option GoString :=
  if 0 ≤ lo ∧ lo ≤ hi ∧ hi ≤ (s.length : Int) then
    some ((s.take hi.toNat).drop lo.toNat)
  else none

/-- Go `filepath.ToSlash(path)` on a platform whose `os.PathSeparator` is `sep`: the path
itself when the separator is a slash, otherwise every separator replaced by a slash. -/
def toSlash (sep : Char) (path : GoString) : GoString :=
  if sep = '/' then path else path.map (fun c => if c = sep then '/' else c)

/-! ## Package `tools` and the parts of `version`, `arch` it needs -/

/-- Modelled from the spec: `version.Binary`, declared in package `version` outside the
embedded files; the spec describes it as the tuple (Major, Minor, Patch, OS, Arch). -/
structure Binary where
  Major : Int
  Minor : Int
  Patch : Int
  OS : Int
  Arch : GoString
deriving DecidableEq

/-- `coretools.Tgz`. -/
def Tgz : GoString := "tgz".toList

/-- `coretools.Zip`. -/
def Zip : GoString := "zip".toList

/-- `coretools.Tools`: the location and version of a tools tarball. -/
structure Tools where
  Version : Binary
  URL : GoString
  SHA256 : GoString
  Size : Int
  FileType : GoString
deriving DecidableEq

/-- `UseZipToolsWindows(vers)`; `windows` is the constant `version.Windows`, declared in
package `version` outside the embedded files. -/
def UseZipToolsWindows (windows : Int) (vers : Binary) : Bool :=
  if vers.OS = windows ∧ (vers.Major > 1 ∨ (vers.Major = 1 ∧ vers.Minor ≥ 26)) then true
  else false

/-- Go `error` values that `ReadList` can return: the two sentinel errors and any other
error, which only a store can produce. -/
inductive Error where
  | ErrNoTools
  | ErrNoMatches
  | other (msg : GoString)
deriving DecidableEq

/-- Outcome of a Go call returning `(T, error)`: a value, an error, or a run-time panic. -/
inductive Result (α : Type) where
  | ok (a : α)
  | err (e : Error)
  | panic
deriving DecidableEq

/-- The methods of `storage.StorageReader` that `ReadList` calls. -/
structure StorageReader where
  List : GoString → Except Error (List GoString)
  URL : GoString → Except Error GoString

/-- What `storage.go` takes from outside the embedded files: the platform path separator,
`version.ParseBinary` (its error is only logged, so failure is `none`),
`version.Binary.String`, and the two architecture tags of package `arch`. -/
structure Platform where
  Separator : Char
  ParseBinary : GoString → Option Binary
  BinaryString : Binary → GoString
  PPC64EL : GoString
  LEGACY_PPC64 : GoString

/-! ## `environs/tools/storage.go` -/

/-- Constant `unixToolSuffix`. -/
def unixToolSuffix : GoString := ".".toList ++ Tgz

/-- Constant `windowsToolSuffix`. -/
def windowsToolSuffix : GoString := ".".toList ++ Zip

/-- Constant `toolSuffixLen`. -/
def toolSuffixLen : Int := 4

/-- `storagePrefix(stream)`: `fmt.Sprintf("tools/%s/juju-", stream)`. -/
def storagePrefix (stream : GoString) : GoString :=
  "tools/".toList ++ stream ++ "/juju-".toList

/-- `StorageName(vers, stream, fileType)`. -/
def StorageName (P : Platform) (vers : Binary) (stream fileType : GoString) : GoString :=
  storagePrefix stream ++ P.BinaryString vers ++ fileType

/-- The `for _, name := range names` loop of `ReadList` together with the result policy
that follows it; `list` and `foundAnyTools` are the loop's two variables. -/
def readLoop (P : Platform) (stor : StorageReader) (pfx : GoString)
    (majorVersion minorVersion : Int) :
    List GoString → List Tools → Bool → Result (List Tools)
  | [], list, foundAnyTools =>
    if list.length = 0 then
      if foundAnyTools then Result.err Error.ErrNoMatches else Result.err Error.ErrNoTools
    else Result.ok list
  | name :: rest, list, foundAnyTools =>
    let name := toSlash P.Separator name
    if !hasPrefix name pfx then
      readLoop P stor pfx majorVersion minorVersion rest list foundAnyTools
    else if !(hasSuffix name unixToolSuffix || hasSuffix name windowsToolSuffix) then
      readLoop P stor pfx majorVersion minorVersion rest list foundAnyTools
    else
      match goSlice name pfx.length ((name.length : Int) - toolSuffixLen) with
      | none => Result.panic
      | some vers =>
        match P.ParseBinary vers with
        | none => readLoop P stor pfx majorVersion minorVersion rest list foundAnyTools
        | some v =>
          if v.Major ≠ majorVersion then
            readLoop P stor pfx majorVersion minorVersion rest list true
          else if minorVersion ≥ 0 ∧ v.Minor ≠ minorVersion then
            readLoop P stor pfx majorVersion minorVersion rest list true
          else
            let fileType : GoString :=
              if hasSuffix name unixToolSuffix then Tgz
              else if hasSuffix name windowsToolSuffix then Zip
              else []
            match stor.URL name with
            | Except.error e => Result.err e
            | Except.ok u =>
              let t : Tools :=
                { Version := v, URL := u, SHA256 := [], Size := 0, FileType := fileType }
              let list := list ++ [t]
              if v.Arch = P.PPC64EL then
                let legacyPPC64Tools : Tools :=
                  { t with Version := { t.Version with Arch := P.LEGACY_PPC64 } }
                readLoop P stor pfx majorVersion minorVersion rest
                  (list ++ [legacyPPC64Tools]) true
              else
                readLoop P stor pfx majorVersion minorVersion rest list true

/-- `ReadList(stor, toolsDir, majorVersion, minorVersion)`. -/
def ReadList (P : Platform) (stor : StorageReader) (toolsDir : GoString)
    (majorVersion minorVersion : Int) : Result (List Tools) :=
  match stor.List (storagePrefix toolsDir) with
  | Except.error e => Result.err e
  | Except.ok names => readLoop P stor (storagePrefix toolsDir) majorVersion minorVersion names [] false

/-! ## The resolver as the specification words it

These definitions follow the specification (bundle naming scheme, version filter, legacy
alias); the theorems below compare them with `readLoop`. -/

/-- The version part of a bundle name: what is left of `name` once the prefix and the
fixed four-character suffix are stripped. -/
def versionPart (pfx name : GoString) : GoString :=
  (name.take (name.length - 4)).drop pfx.length

/-- The specification's `decompose(name, prefix)`: the name must start with the prefix and
end in a recognised suffix, and the part in between must parse; the result is the parsed
version and the file type named by the suffix. -/
def decompose (P : Platform) (pfx name : GoString) : Option (Binary × GoString) :=
  if hasPrefix name pfx = true then
    if hasSuffix name unixToolSuffix = true then
      (P.ParseBinary (versionPart pfx name)).map (fun v => (v, Tgz))
    else if hasSuffix name windowsToolSuffix = true then
      (P.ParseBinary (versionPart pfx name)).map (fun v => (v, Zip))
    else none
  else none

/-- A listed name is a syntactically valid bundle name when, once normalised by
`filepath.ToSlash`, it decomposes. -/
def validName (P : Platform) (pfx name : GoString) : Bool :=
  (decompose P pfx (toSlash P.Separator name)).isSome

/-- The specification's version filter: the major must be equal; the minor must be equal
when a non-negative minor is requested, and is free otherwise. -/
def versionFilter (majorVersion minorVersion : Int) (v : Binary) : Bool :=
  decide (v.Major = majorVersion) && (decide (minorVersion < 0) || decide (v.Minor = minorVersion))

/-- A listed name matches a query when it is a valid bundle name whose version passes the
filter. -/
def matchingName (P : Platform) (pfx : GoString) (majorVersion minorVersion : Int)
    (name : GoString) : Bool :=
  match decompose P pfx (toSlash P.Separator name) with
  | none => false
  | some (v, _) => versionFilter majorVersion minorVersion v

/-- The legacy alias of a catalog entry: the same entry with the legacy Power-PC tag. -/
def legacyAlias (P : Platform) (t : Tools) : Tools :=
  { t with Version := { t.Version with Arch := P.LEGACY_PPC64 } }

/-- The catalog entries one bundle stands for: the entry itself, followed by its legacy
alias when its architecture is the Power-PC little-endian tag. -/
def withAlias (P : Platform) (t : Tools) : List Tools :=
  if t.Version.Arch = P.PPC64EL then [t, legacyAlias P t] else [t]

/-- The URL a store resolves a name to (the empty string where resolution fails). -/
def urlOf (stor : StorageReader) (name : GoString) : GoString :=
  match stor.URL name with
  | Except.ok u => u
  | Except.error _ => []

/-- The catalog entries a listed name contributes to a query: none unless the name is a
valid bundle name passing the version filter; otherwise its entry (version parsed from
the name, URL resolved by the store, file type from the suffix) with its alias, if any. -/
def entriesFor (P : Platform) (stor : StorageReader) (pfx : GoString)
    (majorVersion minorVersion : Int) (name : GoString) : List Tools :=
  match decompose P pfx (toSlash P.Separator name) with
  | none => []
  | some (v, ft) =>
    if versionFilter majorVersion minorVersion v = true then
      withAlias P { Version := v, URL := urlOf stor (toSlash P.Separator name), SHA256 := [],
                    Size := 0, FileType := ft }
    else []

/-- What one iteration of the loop of `ReadList` adds to `list`, or the error it returns. -/
def contrib (P : Platform) (stor : StorageReader) (pfx : GoString)
    (majorVersion minorVersion : Int) (name : GoString) : Except Error (List Tools) :=
  if matchingName P pfx majorVersion minorVersion name = true then
    match stor.URL (toSlash P.Separator name) with
    | Except.error e => Except.error e
    | Except.ok _ => Except.ok (entriesFor P stor pfx majorVersion minorVersion name)
  else Except.ok []

/-- The result policy at the end of `ReadList`. -/
def resultPolicy (list : List Tools) (foundAnyTools : Bool) : Result (List Tools) :=
  if list.length = 0 then
    if foundAnyTools then Result.err Error.ErrNoMatches else Result.err Error.ErrNoTools
  else Result.ok list

/-- All iterations of the loop: the entries added, in order, or the first error. -/
def collect (P : Platform) (stor : StorageReader) (pfx : GoString)
    (majorVersion minorVersion : Int) : List GoString → Except Error (List Tools)
  | [] => Except.ok []
  | name :: rest =>
    match contrib P stor pfx majorVersion minorVersion name with
    | Except.error e => Except.error e
    | Except.ok es =>
      match collect P stor pfx majorVersion minorVersion rest with
      | Except.error e => Except.error e
      | Except.ok l => Except.ok (es ++ l)

/-! ## `environs/tools.go`: the legacy resolver and the fetcher -/

namespace Environs

/-- Modelled from the spec: `version.Version` of the legacy `version` package, declared
outside the embedded files; the source builds it as `version.Version{Major: -1}` and the
spec orders it by Major, Minor, Patch. -/
structure Version where
  Major : Int
  Minor : Int
  Patch : Int
deriving DecidableEq

/-- Modelled from the spec: `Version.Less`, the strict order on versions by Major, then
Minor, then Patch. -/
def Version.Less (v w : Version) : Bool :=
  if v.Major ≠ w.Major then decide (v.Major < w.Major)
  else if v.Minor ≠ w.Minor then decide (v.Minor < w.Minor)
  else if v.Patch ≠ w.Patch then decide (v.Patch < w.Patch)
  else false

/-- Go `error` values seen by `environs/tools.go`: a `*NotFoundError` wrapping a message,
the two errors `GetTools` builds with `fmt.Errorf` (kept with their arguments rather than
formatted), and any other error. -/
inductive EnvError where
  | NotFound (msg : GoString)
  | badName (name : GoString)
  | tarExtract (name : GoString) (cause : EnvError)
  | other (msg : GoString)
deriving DecidableEq

/-- A tar header as far as `GetTools` reads it. -/
structure TarHeader where
  Name : GoString
  Mode : Int
deriving DecidableEq

/-- What the tar reader yields over a stream: the headers returned by successive calls of
`tr.Next()`, then the error that ends them (`none` for `io.EOF`). -/
structure Archive where
  entries : List TarHeader
  tail : Option EnvError
deriving DecidableEq

/-- What `storage.Get` hands to `GetTools`: a stream `gzip.NewReader` rejects, or one it
accepts and the tar reader walks. -/
inductive Stream where
  | badGzip (e : EnvError)
  | tar (a : Archive)
deriving DecidableEq

/-- The `StorageReader` interface of package `environs`. -/
structure StorageReader where
  Get : GoString → Except EnvError Stream
  List : GoString → Except EnvError (List GoString)

/-- The methods of `Environ` that `findTools` calls. -/
structure Environ where
  Storage : StorageReader
  PublicStorage : StorageReader

/-- What `environs/tools.go` takes from outside the embedded files: `runtime.GOARCH`,
`version.Current`, `version.Parse` (failure is `none`) and `Version.String`. -/
structure Runtime where
  GOARCH : GoString
  Current : Version
  Parse : GoString → Option Version
  VersionString : Version → GoString

/-- Variable `currentSeries`. -/
def currentSeries : GoString := "precise".toList

/-- `ubuntuArch(arch)`. -/
def ubuntuArch (arch : GoString) : GoString :=
  if arch = "386".toList then "i386".toList else arch

/-- Variable `currentArch`. -/
def currentArch (R : Runtime) : GoString := ubuntuArch R.GOARCH

/-- Variable `toolPrefix`. -/
def toolPrefix : GoString := "tools/juju-".toList

/-- Go `%d` of an integer. -/
def formatInt (n : Int) : GoString := (toString n).toList

/-- The regular-expression class `\d`: an ASCII digit. -/
def isDigit (c : Char) : Bool := decide ('0' ≤ c) && decide (c ≤ '9')

/-- Whether `s` matches `\d+\.\d+\.\d+` in full. -/
def matchDotted (s : GoString) : Bool :=
  let d1 := s.takeWhile isDigit
  match s.dropWhile isDigit with
  | '.' :: s2 =>
    let d2 := s2.takeWhile isDigit
    match s2.dropWhile isDigit with
    | '.' :: s3 => !d1.isEmpty && !d2.isEmpty && !s3.isEmpty && s3.all isDigit
    | _ => false
  | _ => false

/-- `toolFilePat.FindStringSubmatch(name)` for
`^tools/juju-(\d+\.\d+\.\d+)-([^-]+)-([^-]+)\.tgz$`: the three captured groups, or `none`
when the name does not match.  No group can hold a dash, so after the prefix the name
splits at its first two dashes, and the third part is the architecture followed by
`.tgz`. -/
def toolFilePat (name : GoString) : Option (GoString × GoString × GoString) :=
  if hasPrefix name toolPrefix then
    let rest := name.drop toolPrefix.length
    let m1 := rest.takeWhile (fun c => c ≠ '-')
    match rest.dropWhile (fun c => c ≠ '-') with
    | '-' :: r2 =>
      let m2 := r2.takeWhile (fun c => c ≠ '-')
      match r2.dropWhile (fun c => c ≠ '-') with
      | '-' :: r3 =>
        let m3 := r3.take (r3.length - 4)
        if matchDotted m1 && !m2.isEmpty && !m3.isEmpty && r3.all (fun c => c ≠ '-')
            && hasSuffix r3 ".tgz".toList then
          some (m1, m2, m3)
        else none
      | _ => none
    | _ => none
  else none

/-- `toolsPathForVersion(v, series, arch)`. -/
def toolsPathForVersion (R : Runtime) (v : Version) (series arch : GoString) : GoString :=
  toolPrefix ++ R.VersionString v ++ "-".toList ++ series ++ "-".toList ++ arch ++ ".tgz".toList

/-- The `for _, name := range names` loop of `findToolsPath`; `bestVersion` and `bestName`
are the loop's two variables. -/
def bestLoop (R : Runtime) : List GoString → Version → GoString → Version × GoString
  | [], bestVersion, bestName => (bestVersion, bestName)
  | name :: rest, bestVersion, bestName =>
    match toolFilePat name with
    | none => bestLoop R rest bestVersion bestName
    | some (m1, m2, m3) =>
      match R.Parse m1 with
      | none => bestLoop R rest bestVersion bestName
      | some vers =>
        if m2 ≠ currentSeries then bestLoop R rest bestVersion bestName
        else if m3 ≠ currentArch R then bestLoop R rest bestVersion bestName
        else if vers.Major ≠ R.Current.Major then bestLoop R rest bestVersion bestName
        else if bestVersion.Less vers then bestLoop R rest vers name
        else bestLoop R rest bestVersion bestName

/-- `findToolsPath(store)`. -/
def findToolsPath (R : Runtime) (store : StorageReader) : Except EnvError GoString :=
  match store.List (toolPrefix ++ formatInt R.Current.Major ++ ".".toList) with
  | Except.error e => Except.error e
  | Except.ok names =>
    if names.length = 0 then
      Except.error (EnvError.NotFound "no tools found".toList)
    else
      match bestLoop R names { Major := -1, Minor := 0, Patch := 0 } [] with
      | (bestVersion, bestName) =>
        if bestVersion.Major < 0 then
          Except.error (EnvError.NotFound "no compatible tools found".toList)
        else Except.ok bestName

/-- The type assertion `err.(*NotFoundError)` on the outcome of a search. -/
def isNotFound (r : Except EnvError GoString) : Bool :=
  match r with
  | Except.error (EnvError.NotFound _) => true
  | _ => false

/-- `findTools(env)`. -/
def findTools (R : Runtime) (env : Environ) : Except EnvError (StorageReader × GoString) :=
  let storage := env.Storage
  let r := findToolsPath R storage
  let sr : StorageReader × Except EnvError GoString :=
    if isNotFound r then (env.PublicStorage, findToolsPath R env.PublicStorage)
    else (storage, r)
  match sr.2 with
  | Except.error e => Except.error e
  | Except.ok path => Except.ok (sr.1, path)

/-- Go `strings.Contains(s, sub)`. -/
def stringsContains (s sub : GoString) : Bool :=
  s.tails.any (fun t => sub.isPrefixOf t)

/-- The elements of a slash-separated path: `splitSlash cur path` splits `path` at every
slash, `cur` being the element under construction. -/
def splitSlash : GoString → GoString → List GoString
  | cur, [] => [cur]
  | cur, c :: rest => if c = '/' then cur :: splitSlash [] rest else splitSlash (cur ++ [c]) rest

/-- The element rules of Go `filepath.Clean`: empty and `.` elements are dropped; `..`
removes the element before it, is dropped at the root of a rooted path, and is kept
otherwise. -/
def cleanElems (rooted : Bool) : List GoString → List GoString → List GoString
  | out, [] => out
  | out, e :: rest =>
    if e = [] ∨ e = ['.'] then cleanElems rooted out rest
    else if e = ['.', '.'] then
      if out ≠ [] ∧ out.getLast? ≠ some ['.', '.'] then cleanElems rooted out.dropLast rest
      else if rooted then cleanElems rooted out rest
      else cleanElems rooted (out ++ [e]) rest
    else cleanElems rooted (out ++ [e]) rest

/-- Go `filepath.Clean(path)` with `/` as separator. -/
def filepathClean (path : GoString) : GoString :=
  let rooted := hasPrefix path ['/']
  let body := ['/'].intercalate (cleanElems rooted [] (splitSlash [] path))
  let r := (if rooted then ['/'] else []) ++ body
  if r = [] then ['.'] else r

/-- Go `filepath.Join(dir, name)` with `/` as separator: the non-empty elements joined by
the separator and cleaned. -/
def filepathJoin (dir name : GoString) : GoString :=
  if dir ≠ [] then filepathClean (dir ++ ['/'] ++ name)
  else if name ≠ [] then filepathClean name
  else []

/-- A call of `writeFile(name, mode, r)`. -/
structure WriteCall where
  name : GoString
  mode : Int
deriving DecidableEq

/-- The extraction loop of `GetTools`: `fs` tells which calls of `writeFile` fail, `calls`
collects the calls of `writeFile` made so far; the result is the calls made and the
error returned (`none` for `nil`). -/
def extractLoop (fs : GoString → Option EnvError) (dir : GoString) (tail : Option EnvError) :
    List TarHeader → List WriteCall → List WriteCall × Option EnvError
  | [], calls => (calls, tail)
  | hdr :: rest, calls =>
    if stringsContains hdr.Name "/\\".toList then
      (calls, some (EnvError.badName hdr.Name))
    else
      let name := filepathJoin dir hdr.Name
      let calls := calls ++ [{ name := name, mode := hdr.Mode % 512 }]
      match fs name with
      | some err => (calls, some (EnvError.tarExtract name err))
      | none => extractLoop fs dir tail rest calls

/-- `GetTools(env, dir)`: the calls of `writeFile` it makes and the error it returns. -/
def GetTools (R : Runtime) (fs : GoString → Option EnvError) (env : Environ) (dir : GoString) :
    List WriteCall × Option EnvError :=
  match findTools R env with
  | Except.error e => ([], some e)
  | Except.ok (storage, path) =>
    match storage.Get path with
    | Except.error e => ([], some e)
    | Except.ok (Stream.badGzip e) => ([], some e)
    | Except.ok (Stream.tar a) => extractLoop fs dir a.tail a.entries []

/-- Modelled from the spec: the string of a legacy version, `<major>.<minor>.<patch>`, which
`Version.String`, declared outside the embedded files, produces. -/
def dottedString (v : Version) : GoString :=
  formatInt v.Major ++ ".".toList ++ formatInt v.Minor ++ ".".toList ++ formatInt v.Patch

/-- Variable `toolsPath`: the name under which `PutTools` stores the archive. -/
def toolsPath (R : Runtime) : GoString :=
  toolsPathForVersion R R.Current currentSeries (currentArch R)

/-! ### The archiver -/

/-- `os.FileInfo` as far as `archive` reads it: `Mode` is the value of the `uint32`
`os.FileMode`, `ModTime` an instant. -/
structure FileInfo where
  Name : GoString
  Size : Int
  Mode : Nat
  ModTime : Int
deriving DecidableEq

/-- `tar.Header` as far as `tarHeader` fills it. -/
structure Header where
  Typeflag : Char
  Name : GoString
  Size : Int
  Mode : Int
  ModTime : Int
  AccessTime : Int
  ChangeTime : Int
  Uname : GoString
  Gname : GoString
deriving DecidableEq

/-- Constant `tar.TypeReg`. -/
def TypeReg : Char := '0'

/-- Errors `archive` can return: the one it builds with `fmt.Errorf` for an entry that is
not an executable file (kept with its argument rather than formatted), and any error of
the file system or of a writer. -/
inductive ArchError where
  | nonExecutable (path : GoString)
  | io (msg : GoString)
deriving DecidableEq

/-- What `archive` does to the outside, in order: tar headers written, files copied into
the tar writer, writers closed. -/
inductive Event where
  | writeHeader (h : Header)
  | readFile (path : GoString)
  | closeTar
  | closeGzip
deriving DecidableEq

/-- What `archive` takes from outside the embedded files: the constant `os.ModeType`, the
listing `ioutil.ReadDir` returns, and the error (`none` for `nil`) returned by each write
and each `Close`, which may depend on everything done before. -/
structure ArchiveEnv where
  ModeType : Nat
  ReadDir : GoString → Except ArchError (List FileInfo)
  WriteHeader : List Event → Header → Option ArchError
  ReadFile : List Event → GoString → Option ArchError
  CloseTar : List Event → Option ArchError
  CloseGzip : List Event → Option ArchError

/-- `tarHeader(i)`. -/
def tarHeader (i : FileInfo) : Header :=
  { Typeflag := TypeReg, Name := i.Name, Size := i.Size,
    Mode := ((i.Mode &&& 0o777 : Nat) : Int),
    ModTime := i.ModTime, AccessTime := i.ModTime, ChangeTime := i.ModTime,
    Uname := "ubuntu".toList, Gname := "ubuntu".toList }

/-- `isExecutable(i)`, with `modeType` the constant `os.ModeType`. -/
def isExecutable (modeType : Nat) (i : FileInfo) : Bool :=
  i.Mode &&& (0o100 ||| modeType) == 0o100

/-- `closeErrorCheck(errp, c)`: `err` is the value of `*errp` before the call, `closed` the
result of `c.Close()`; the result is the value of `*errp` after the call. -/
def closeErrorCheck (err closed : Option ArchError) : Option ArchError :=
  if err = none then closed else err

/-- The `for _, ent := range entries` loop of `archive`: `log` is what has been done so far;
the result is what has been done when the loop is left and the value it returns. -/
def archiveLoop (E : ArchiveEnv) (dir : GoString) :
    List FileInfo → List Event → List Event × Option ArchError
  | [], log => (log, none)
  | ent :: rest, log =>
    if !isExecutable E.ModeType ent then
      (log, some (ArchError.nonExecutable (filepathJoin dir ent.Name)))
    else
      let h : Header := { tarHeader ent with Mode := 0o755 }
      match E.WriteHeader log h with
      | some err => (log ++ [Event.writeHeader h], some err)
      | none =>
        let log := log ++ [Event.writeHeader h]
        match E.ReadFile log (filepathJoin dir ent.Name) with
        | some err => (log ++ [Event.readFile (filepathJoin dir ent.Name)], some err)
        | none => archiveLoop E dir rest (log ++ [Event.readFile (filepathJoin dir ent.Name)])

/-- `archive(w, dir)`: what it does, in order, and the error it returns.  The two deferred
calls of `closeErrorCheck` run once the loop is left, last deferred first. -/
def archive (E : ArchiveEnv) (dir : GoString) : List Event × Option ArchError :=
  match E.ReadDir dir with
  | Except.error e => ([], some e)
  | Except.ok entries =>
    match archiveLoop E dir entries [] with
    | (log, err) =>
      let err := closeErrorCheck err (E.CloseTar log)
      let log := log ++ [Event.closeTar]
      let err := closeErrorCheck err (E.CloseGzip log)
      (log ++ [Event.closeGzip], err)

/-- A store holding exactly the objects `objects`, each with content `content`: it lists
the names that start with the prefix asked for. -/
def storeHolding (objects : List GoString) (content : Stream) : StorageReader :=
  { Get := fun name =>
      if name ∈ objects then Except.ok content
      else Except.error (EnvError.NotFound name),
    List := fun pfx => Except.ok (objects.filter (fun name => hasPrefix name pfx)) }

/-- Whether a listing is in the order `ioutil.ReadDir` returns: sorted by file name. -/
def sortedByName (entries : List FileInfo) : Bool :=
  (entries.zip entries.tail).all (fun p => decide (p.1.Name < p.2.Name))

/-- The tar headers written, in order, among the events of a run of `archive`. -/
def headersWritten : List Event → List Header
  | [] => []
  | Event.writeHeader h :: rest => h :: headersWritten rest
  | _ :: rest => headersWritten rest

/-- The version of a listed name when the name is compatible: it matches `toolFilePat`,
its version parses, its series is `currentSeries`, its architecture is `currentArch` and
its major is that of `version.Current`; `none` for any other name. -/
def compatibleVersion (R : Runtime) (name : GoString) : Option Version :=
  match toolFilePat name with
  | none => none
  | some (m1, m2, m3) =>
    match R.Parse m1 with
    | none => none
    | some vers =>
      if m2 = currentSeries ∧ m3 = currentArch R ∧ vers.Major = R.Current.Major then some vers
      else none

/-- Whether `path` names something strictly below directory `dir`. -/
def insideDir (dir path : GoString) : Bool :=
  hasPrefix path (dir ++ ['/']) && !stringsContains path "/../".toList &&
    !hasSuffix path "/..".toList

end Environs

/-! ## Sample data

A Unix platform whose version parser knows a handful of version strings, and a store
holding a fixed listing; used to evaluate the definitions on concrete inputs. -/

/-- Sample version `maj.min.0` for OS tag `1` and the given architecture. -/
def sampleBinary (maj min : Int) (arch : String) : Binary :=
  { Major := maj, Minor := min, Patch := 0, OS := 1, Arch := arch.toList }

/-- Sample table standing for `version.ParseBinary`. -/
def sampleParseBinary (s : GoString) : Option Binary :=
  if s = "1.0.0-trusty-amd64".toList then some (sampleBinary 1 0 "amd64")
  else if s = "1.2.0-trusty-amd64".toList then some (sampleBinary 1 2 "amd64")
  else if s = "2.0.0-trusty-amd64".toList then some (sampleBinary 2 0 "amd64")
  else if s = "2.1.0-trusty-amd64".toList then some (sampleBinary 2 1 "amd64")
  else if s = "2.0.0-trusty-ppc64el".toList then some (sampleBinary 2 0 "ppc64el")
  else none

/-- Sample table standing for `version.Binary.String`. -/
def sampleBinaryString (v : Binary) : GoString :=
  if v = sampleBinary 1 0 "amd64" then "1.0.0-trusty-amd64".toList
  else if v = sampleBinary 1 2 "amd64" then "1.2.0-trusty-amd64".toList
  else if v = sampleBinary 2 0 "amd64" then "2.0.0-trusty-amd64".toList
  else if v = sampleBinary 2 1 "amd64" then "2.1.0-trusty-amd64".toList
  else if v = sampleBinary 2 0 "ppc64el" then "2.0.0-trusty-ppc64el".toList
  else []

/-- Sample platform with the given path separator. -/
def samplePlatform (sep : Char) : Platform :=
  { Separator := sep, ParseBinary := sampleParseBinary, BinaryString := sampleBinaryString,
    PPC64EL := "ppc64el".toList, LEGACY_PPC64 := "ppc64".toList }

/-- Sample store: it lists `names` under every prefix and resolves every URL. -/
def sampleStore (names : List GoString) : StorageReader :=
  { List := fun _ => Except.ok names, URL := fun n => Except.ok ("https://store/".toList ++ n) }

/-- Sample store that lists `names` but fails to resolve any URL. -/
def offlineStore (names : List GoString) : StorageReader :=
  { List := fun _ => Except.ok names, URL := fun _ => Except.error (Error.other "offline".toList) }

/-- Sample listing of stream `released`: bundles at 1.0, 1.2, 2.0 and 2.1. -/
def sampleListing : List GoString :=
  [ "tools/released/juju-1.0.0-trusty-amd64.tgz".toList,
    "tools/released/juju-1.2.0-trusty-amd64.tgz".toList,
    "tools/released/juju-2.0.0-trusty-amd64.tgz".toList,
    "tools/released/juju-2.1.0-trusty-amd64.zip".toList ]

/-- Catalog entry the sample store yields for an `amd64` bundle. -/
def sampleEntry (maj min : Int) (arch : String) (name : String) (ft : GoString) : Tools :=
  { Version := sampleBinary maj min arch, URL := "https://store/".toList ++ name.toList,
    SHA256 := [], Size := 0, FileType := ft }

/-- Sample listing holding an `amd64` bundle followed by a `ppc64el` bundle, both at 2.0. -/
def samplePowerListing : List GoString :=
  [ "tools/released/juju-2.0.0-trusty-amd64.tgz".toList,
    "tools/released/juju-2.0.0-trusty-ppc64el.tgz".toList ]

/-- Sample listing polluted by an unrelated object between the bundles at 1.2 and 2.0. -/
def samplePollutedListing : List GoString :=
  [ "tools/released/juju-1.0.0-trusty-amd64.tgz".toList,
    "tools/released/juju-1.2.0-trusty-amd64.tgz".toList,
    "tools/released/juju-README.txt".toList,
    "tools/released/juju-2.0.0-trusty-amd64.tgz".toList,
    "tools/released/juju-2.1.0-trusty-amd64.zip".toList ]

/-- Sample table standing for the legacy `version.Parse`. -/
def sampleParse (s : GoString) : Option Environs.Version :=
  if s = "1.2.3".toList then some { Major := 1, Minor := 2, Patch := 3 }
  else if s = "1.02.3".toList then some { Major := 1, Minor := 2, Patch := 3 }
  else if s = "1.10.0".toList then some { Major := 1, Minor := 10, Patch := 0 }
  else if s = "2.0.0".toList then some { Major := 2, Minor := 0, Patch := 0 }
  else none

/-- Sample runtime: an `amd64` machine running version 1.0.0. -/
def sampleRuntime : Environs.Runtime :=
  { GOARCH := "amd64".toList, Current := { Major := 1, Minor := 0, Patch := 0 },
    Parse := sampleParse,
    VersionString := fun v => Environs.formatInt v.Major ++ ".".toList ++
      Environs.formatInt v.Minor ++ ".".toList ++ Environs.formatInt v.Patch }

/-- Sample archive: a single entry of mode 0755 with the given name. -/
def sampleArchive (name : String) : Environs.Stream :=
  Environs.Stream.tar { entries := [{ Name := name.toList, Mode := 493 }], tail := none }

/-- Sample legacy store: it lists `names` under every prefix and serves one archive, holding
a single entry called `entry`, under every name. -/
def sampleLegacyStore (names : List GoString) (entry : String) : Environs.StorageReader :=
  { Get := fun _ => Except.ok (sampleArchive entry), List := fun _ => Except.ok names }

/-- Sample legacy store whose listing fails with an error that is not a `*NotFoundError`. -/
def brokenLegacyStore : Environs.StorageReader :=
  { Get := fun _ => Except.error (Environs.EnvError.other "connection refused".toList),
    List := fun _ => Except.error (Environs.EnvError.other "connection refused".toList) }

/-- Sample legacy listing: two compatible names carrying version 1.2.3, a compatible 1.10.0,
a name for another architecture, one of another major and an unrelated object. -/
def sampleLegacyListing : List GoString :=
  [ "tools/juju-1.2.3-precise-amd64.tgz".toList,
    "tools/juju-1.10.0-precise-i386.tgz".toList,
    "tools/juju-1.10.0-precise-amd64.tgz".toList,
    "tools/juju-2.0.0-precise-amd64.tgz".toList,
    "tools/juju-1.02.3-precise-amd64.tgz".toList,
    "tools/juju-README".toList ]

/-- The constant `os.ModeType` of Go 1.0: `ModeDir | ModeSymlink | ModeNamedPipe |
ModeSocket | ModeDevice`, the bits 31, 27, 25, 24 and 26 (later releases add the bits 21
and 19, `ModeCharDevice` and `ModeIrregular`). -/
def goModeType : Nat := 2 ^ 31 ||| 2 ^ 27 ||| 2 ^ 25 ||| 2 ^ 24 ||| 2 ^ 26

/-- Sample file of the given name and mode. -/
def sampleFile (name : String) (mode : Nat) : Environs.FileInfo :=
  { Name := name.toList, Size := 1, Mode := mode, ModTime := 1351000000 }

/-- Sample environment of `archive`: directory `/tmp/juju-tools` holds `entries`, and every
operation succeeds. -/
def sampleArchiveEnv (entries : List Environs.FileInfo) : Environs.ArchiveEnv :=
  { ModeType := goModeType,
    ReadDir := fun _ => Except.ok entries,
    WriteHeader := fun _ _ => none,
    ReadFile := fun _ _ => none,
    CloseTar := fun _ => none,
    CloseGzip := fun _ => none }

/-- Sample environment of `archive` whose tar writer fails on every header, and whose two
`Close` calls fail as well. -/
def fullDiskArchiveEnv (entries : List Environs.FileInfo) : Environs.ArchiveEnv :=
  { ModeType := goModeType,
    ReadDir := fun _ => Except.ok entries,
    WriteHeader := fun _ _ => some (Environs.ArchError.io "no space left on device".toList),
    ReadFile := fun _ _ => none,
    CloseTar := fun _ => some (Environs.ArchError.io "tar: close failed".toList),
    CloseGzip := fun _ => some (Environs.ArchError.io "gzip: close failed".toList) }

/-- The tar header `archive` writes for the sample file of the given name. -/
def sampleHeader (name : String) : Environs.Header :=
  { Typeflag := '0', Name := name.toList, Size := 1, Mode := 0o755, ModTime := 1351000000,
    AccessTime := 1351000000, ChangeTime := 1351000000,
    Uname := "ubuntu".toList, Gname := "ubuntu".toList }

/-- Sample value of the constant `version.Windows`. -/
def sampleWindows : Int := 2

/-- Sample Windows version `maj.min.patch` for the given architecture. -/
def sampleWindowsBinary (maj min patch : Int) (arch : String) : Binary :=
  { Major := maj, Minor := min, Patch := patch, OS := sampleWindows, Arch := arch.toList }

/-- Sample archive holding the given entries, each of mode 0755. -/
def sampleArchiveOf (names : List String) : Environs.Stream :=
  Environs.Stream.tar
    { entries := names.map (fun n => { Name := n.toList, Mode := 493 }), tail := none }

/-- Sample legacy store serving the archive of the given entries under every name. -/
def sampleArchiveStore (names : List String) : Environs.StorageReader :=
  { Get := fun _ => Except.ok (sampleArchiveOf names),
    List := fun _ => Except.ok sampleLegacyListing }

/-- Sample runtime: an `amd64` machine running version 1.2.3, a version the sample parser
knows. -/
def releaseRuntime : Environs.Runtime :=
  { GOARCH := "amd64".toList, Current := { Major := 1, Minor := 2, Patch := 3 },
    Parse := sampleParse, VersionString := Environs.dottedString }

/-! ## Lemmas on `ReadList` -/

theorem length_of_prefix_suffix (n p s : GoString) (hp : p <+: n) (hs : s <:+ n)
    (hd : ∃ q, p = q ++ ['-']) (hns : '-' ∉ s) : p.length + s.length ≤ n.length := by
  obtain ⟨q, rfl⟩ := hd
  obtain ⟨r, hr⟩ := hp
  obtain ⟨t, ht⟩ := hs
  have h := hr.trans ht.symm
  rw [List.append_assoc, List.append_eq_append_iff] at h
  rcases h with ⟨a, ha, hb⟩ | ⟨c, hc, hd⟩
  · cases a with
    | nil =>
      simp at hb
      exact absurd (by rw [← hb]; simp) hns
    | cons x a =>
      subst ht
      subst ha
      simp
      omega
  · exact absurd (by rw [hd]; simp) hns

theorem storagePrefix_dash (stream : GoString) : ∃ q, storagePrefix stream = q ++ ['-'] :=
  ⟨"tools/".toList ++ stream ++ "/juju".toList, by simp [storagePrefix]⟩

theorem goSlice_versionPart (n p s : GoString) (hp : hasPrefix n p = true)
    (hs : hasSuffix n s = true) (hd : ∃ q, p = q ++ ['-']) (hns : '-' ∉ s)
    (hl : s.length = 4) :
    goSlice n p.length ((n.length : Int) - toolSuffixLen) = some (versionPart p n) := by
  have h := length_of_prefix_suffix n p s (by simpa [hasPrefix] using hp)
    (by simpa [hasSuffix] using hs) hd hns
  unfold goSlice versionPart toolSuffixLen
  have h4 : ((n.length : Int) - 4).toNat = n.length - 4 := by omega
  rw [if_pos (by omega), h4]
  simp

theorem dash_not_mem_unix : '-' ∉ unixToolSuffix := by decide

theorem dash_not_mem_windows : '-' ∉ windowsToolSuffix := by decide

theorem readLoop_cons (P : Platform) (stor : StorageReader) (pfx : GoString)
    (majorVersion minorVersion : Int) (hd : ∃ q, pfx = q ++ ['-'])
    (name : GoString) (rest : List GoString) (list : List Tools) (found : Bool) :
    readLoop P stor pfx majorVersion minorVersion (name :: rest) list found =
      match contrib P stor pfx majorVersion minorVersion name with
      | Except.error e => Result.err e
      | Except.ok es =>
        readLoop P stor pfx majorVersion minorVersion rest (list ++ es)
          (found || validName P pfx name) := by
  rw [readLoop]
  simp only []
  unfold contrib matchingName validName entriesFor decompose
  cases hp : hasPrefix (toSlash P.Separator name) pfx
  · simp
  · cases hu : hasSuffix (toSlash P.Separator name) unixToolSuffix
    · cases hw : hasSuffix (toSlash P.Separator name) windowsToolSuffix
      · simp
      · rw [goSlice_versionPart _ _ _ hp hw hd dash_not_mem_windows rfl]
        cases hv : P.ParseBinary (versionPart pfx (toSlash P.Separator name)) with
        | none => simp [hv]
        | some v =>
          simp only [hv, Option.map_some', Option.isSome_some, Bool.or_true]
          by_cases hM : v.Major = majorVersion
          · by_cases hm : minorVersion ≥ 0 ∧ v.Minor ≠ minorVersion
            · have hf : versionFilter majorVersion minorVersion v = false := by
                simp [versionFilter, hM]; omega
              simp [hM, hm, hf]
            · have hf : versionFilter majorVersion minorVersion v = true := by
                simp [versionFilter, hM]; omega
              subst hM
              cases hU : stor.URL (toSlash P.Separator name) with
              | error e => simp [hU, hf, hm]
              | ok u =>
                by_cases ha : v.Arch = P.PPC64EL <;>
                  simp [withAlias, legacyAlias, urlOf, hU, ha, hf, hm]
          · have hf : versionFilter majorVersion minorVersion v = false := by
              simp [versionFilter, hM]
            simp [hM, hf]
    · rw [goSlice_versionPart _ _ _ hp hu hd dash_not_mem_unix rfl]
      cases hv : P.ParseBinary (versionPart pfx (toSlash P.Separator name)) with
      | none => simp [hv]
      | some v =>
        simp only [hv, Option.map_some', Option.isSome_some, Bool.or_true]
        by_cases hM : v.Major = majorVersion
        · by_cases hm : minorVersion ≥ 0 ∧ v.Minor ≠ minorVersion
          · have hf : versionFilter majorVersion minorVersion v = false := by
              simp [versionFilter, hM]; omega
            simp [hM, hm, hf]
          · have hf : versionFilter majorVersion minorVersion v = true := by
              simp [versionFilter, hM]; omega
            subst hM
            cases hU : stor.URL (toSlash P.Separator name) with
            | error e => simp [hU, hf, hm]
            | ok u =>
              by_cases ha : v.Arch = P.PPC64EL <;>
                simp [withAlias, legacyAlias, urlOf, hU, ha, hf, hm]
        · have hf : versionFilter majorVersion minorVersion v = false := by
            simp [versionFilter, hM]
          simp [hM, hf]

theorem readLoop_eq (P : Platform) (stor : StorageReader) (pfx : GoString)
    (majorVersion minorVersion : Int) (hd : ∃ q, pfx = q ++ ['-'])
    (names : List GoString) (list : List Tools) (found : Bool) :
    readLoop P stor pfx majorVersion minorVersion names list found =
      match collect P stor pfx majorVersion minorVersion names with
      | Except.error e => Result.err e
      | Except.ok l => resultPolicy (list ++ l) (found || names.any (validName P pfx)) := by
  induction names generalizing list found with
  | nil => simp [readLoop, collect, resultPolicy]
  | cons name rest ih =>
    rw [readLoop_cons P stor pfx majorVersion minorVersion hd, collect]
    cases hc : contrib P stor pfx majorVersion minorVersion name with
    | error e => simp
    | ok es =>
      simp only [ih]
      cases hr : collect P stor pfx majorVersion minorVersion rest with
      | error e => simp
      | ok l => simp [List.append_assoc, Bool.or_assoc]

theorem ReadList_eq (P : Platform) (stor : StorageReader) (toolsDir : GoString)
    (majorVersion minorVersion : Int) (names : List GoString)
    (hl : stor.List (storagePrefix toolsDir) = Except.ok names) :
    ReadList P stor toolsDir majorVersion minorVersion =
      match collect P stor (storagePrefix toolsDir) majorVersion minorVersion names with
      | Except.error e => Result.err e
      | Except.ok l => resultPolicy l (names.any (validName P (storagePrefix toolsDir))) := by
  unfold ReadList
  rw [hl]
  simp only []
  rw [readLoop_eq P stor _ majorVersion minorVersion (storagePrefix_dash toolsDir)]
  cases collect P stor (storagePrefix toolsDir) majorVersion minorVersion names <;> simp

theorem withAlias_ne_nil (P : Platform) (t : Tools) : withAlias P t ≠ [] := by
  unfold withAlias
  split <;> simp

theorem matchingName_validName (P : Platform) (pfx : GoString) (majorVersion minorVersion : Int)
    (name : GoString) (h : matchingName P pfx majorVersion minorVersion name = true) :
    validName P pfx name = true := by
  unfold matchingName at h
  unfold validName
  cases hdc : decompose P pfx (toSlash P.Separator name) with
  | none => simp [hdc] at h
  | some p => simp

theorem entriesFor_eq_nil_iff (P : Platform) (stor : StorageReader) (pfx : GoString)
    (majorVersion minorVersion : Int) (name : GoString) :
    entriesFor P stor pfx majorVersion minorVersion name = [] ↔
      matchingName P pfx majorVersion minorVersion name = false := by
  unfold entriesFor matchingName
  cases hdc : decompose P pfx (toSlash P.Separator name) with
  | none => simp
  | some p =>
    obtain ⟨v, ft⟩ := p
    cases hf : versionFilter majorVersion minorVersion v
    · simp [hf]
    · simp [hf, withAlias_ne_nil]

theorem contrib_of_not_matching (P : Platform) (stor : StorageReader) (pfx : GoString)
    (majorVersion minorVersion : Int) (name : GoString)
    (h : matchingName P pfx majorVersion minorVersion name = false) :
    contrib P stor pfx majorVersion minorVersion name = Except.ok [] := by
  simp [contrib, h]

/-- The loop succeeds exactly when the store resolves the URL of every matching name, and
then it has added the entries of the listed names, in listing order. -/
theorem collect_eq_ok_iff (P : Platform) (stor : StorageReader) (pfx : GoString)
    (majorVersion minorVersion : Int) (names : List GoString) (l : List Tools) :
    collect P stor pfx majorVersion minorVersion names = Except.ok l ↔
      (∀ n ∈ names, matchingName P pfx majorVersion minorVersion n = true →
          stor.URL (toSlash P.Separator n) = Except.ok (urlOf stor (toSlash P.Separator n))) ∧
        l = names.flatMap (entriesFor P stor pfx majorVersion minorVersion) := by
  induction names generalizing l with
  | nil =>
    rw [collect]
    constructor
    · intro h
      injection h with h
      subst h
      simp
    · rintro ⟨_, h⟩
      rw [h]
      rfl
  | cons name rest ih =>
    rw [collect]
    by_cases hm : matchingName P pfx majorVersion minorVersion name = true
    · cases hU : stor.URL (toSlash P.Separator name) with
      | error e =>
        simp [contrib, hm, hU]
      | ok u =>
        have hu : urlOf stor (toSlash P.Separator name) = u := by simp [urlOf, hU]
        cases hr : collect P stor pfx majorVersion minorVersion rest with
        | error e =>
          have := ih
          simp only [hr] at this
          simp only [contrib, hm, hU, if_true]
          constructor
          · intro h; cases h
          · rintro ⟨h1, h2⟩
            exact absurd ((this _).mpr ⟨fun n hn => h1 n (List.mem_cons_of_mem _ hn), rfl⟩)
              (by intro h; cases h)
        | ok l0 =>
          obtain ⟨h1, h2⟩ := (ih l0).mp hr
          simp only [contrib, hm, hU, if_true, List.flatMap_cons, ← h2]
          constructor
          · intro h
            injection h with h
            refine ⟨?_, h.symm⟩
            intro n hn hmn
            rcases List.mem_cons.mp hn with rfl | hn
            · rw [hU, hu]
            · exact h1 n hn hmn
          · rintro ⟨_, h⟩
            rw [h]
    · have hm0 : matchingName P pfx majorVersion minorVersion name = false := by
        simpa using hm
      rw [contrib_of_not_matching _ _ _ _ _ _ hm0]
      have he := (entriesFor_eq_nil_iff P stor pfx majorVersion minorVersion name).mpr hm0
      simp only [List.flatMap_cons, he, List.nil_append]
      cases hr : collect P stor pfx majorVersion minorVersion rest with
      | error e =>
        have := ih
        simp only [hr] at this
        constructor
        · intro h; cases h
        · rintro ⟨h1, h2⟩
          exact absurd ((this _).mpr ⟨fun n hn => h1 n (List.mem_cons_of_mem _ hn), rfl⟩)
            (by intro h; cases h)
      | ok l0 =>
        obtain ⟨h1, h2⟩ := (ih l0).mp hr
        simp only [← h2]
        constructor
        · intro h
          injection h with h
          refine ⟨?_, h.symm⟩
          intro n hn hmn
          rcases List.mem_cons.mp hn with rfl | hn
          · exact absurd hmn hm
          · exact h1 n hn hmn
        · rintro ⟨_, h⟩
          rw [h]

theorem resultPolicy_eq_ok_iff (l r : List Tools) (b : Bool) :
    resultPolicy l b = Result.ok r ↔ l = r ∧ l ≠ [] := by
  unfold resultPolicy
  cases l with
  | nil => cases b <;> simp
  | cons a l => simp

theorem flatMap_entriesFor_eq_nil_iff (P : Platform) (stor : StorageReader) (pfx : GoString)
    (majorVersion minorVersion : Int) (names : List GoString) :
    names.flatMap (entriesFor P stor pfx majorVersion minorVersion) = [] ↔
      ∀ n ∈ names, matchingName P pfx majorVersion minorVersion n = false := by
  rw [List.flatMap_eq_nil_iff]
  constructor
  · intro h n hn
    exact (entriesFor_eq_nil_iff P stor pfx majorVersion minorVersion n).mp (h n hn)
  · intro h n hn
    exact (entriesFor_eq_nil_iff P stor pfx majorVersion minorVersion n).mpr (h n hn)

/-- When the store resolves the URL of every matching listed name, `ReadList` is the result
policy applied to the entries of the listed names. -/
theorem ReadList_of_urls (P : Platform) (stor : StorageReader) (toolsDir : GoString)
    (majorVersion minorVersion : Int) (names : List GoString)
    (hl : stor.List (storagePrefix toolsDir) = Except.ok names)
    (hurl : ∀ n ∈ names, matchingName P (storagePrefix toolsDir) majorVersion minorVersion n = true →
      ∃ u, stor.URL (toSlash P.Separator n) = Except.ok u) :
    ReadList P stor toolsDir majorVersion minorVersion =
      resultPolicy (names.flatMap (entriesFor P stor (storagePrefix toolsDir) majorVersion minorVersion))
        (names.any (validName P (storagePrefix toolsDir))) := by
  rw [ReadList_eq P stor toolsDir majorVersion minorVersion names hl]
  have h := (collect_eq_ok_iff P stor (storagePrefix toolsDir) majorVersion minorVersion names
    (names.flatMap (entriesFor P stor (storagePrefix toolsDir) majorVersion minorVersion))).mpr
    ⟨fun n hn hm => by
      obtain ⟨u, hu⟩ := hurl n hn hm
      simp [urlOf, hu], rfl⟩
  rw [h]

/-- When `ReadList` returns a list, that list is non-empty, it is made of the entries of
the listed names in listing order, and the store resolved every matching name. -/
theorem ReadList_ok (P : Platform) (stor : StorageReader) (toolsDir : GoString)
    (majorVersion minorVersion : Int) (names : List GoString) (l : List Tools)
    (hl : stor.List (storagePrefix toolsDir) = Except.ok names)
    (hres : ReadList P stor toolsDir majorVersion minorVersion = Result.ok l) :
    l = names.flatMap (entriesFor P stor (storagePrefix toolsDir) majorVersion minorVersion) ∧
      l ≠ [] ∧
      ∀ n ∈ names, matchingName P (storagePrefix toolsDir) majorVersion minorVersion n = true →
        stor.URL (toSlash P.Separator n) = Except.ok (urlOf stor (toSlash P.Separator n)) := by
  rw [ReadList_eq P stor toolsDir majorVersion minorVersion names hl] at hres
  cases hc : collect P stor (storagePrefix toolsDir) majorVersion minorVersion names with
  | error e => simp [hc] at hres
  | ok l0 =>
    simp only [hc] at hres
    obtain ⟨h1, h2⟩ := (resultPolicy_eq_ok_iff _ _ _).mp hres
    subst h1
    obtain ⟨h3, h4⟩ := (collect_eq_ok_iff _ _ _ _ _ _ _).mp hc
    exact ⟨h4, h2, h3⟩

theorem hasPrefix_append (p r : GoString) : hasPrefix (p ++ r) p = true := by
  simp [hasPrefix]

theorem hasSuffix_append (q s : GoString) : hasSuffix (q ++ s) s = true := by
  simp [hasSuffix]

theorem hasSuffix_eq_false_of_ne (q s s2 : GoString) (hlen : s2.length = s.length)
    (hne : s2 ≠ s) : hasSuffix (q ++ s) s2 = false := by
  by_contra h
  have h2 : s2 <:+ q ++ s := by simpa [hasSuffix] using h
  have h3 : s <:+ q ++ s := List.suffix_append q s
  have h4 : s2 <:+ s := List.suffix_of_suffix_length_le h2 h3 (by omega)
  exact hne (h4.eq_of_length hlen)

theorem versionPart_append (p vs s : GoString) (hs : s.length = 4) :
    versionPart p (p ++ vs ++ s) = vs := by
  unfold versionPart
  have h : (p ++ vs ++ s).length - 4 = (p ++ vs).length := by
    simp only [List.length_append, hs]; omega
  rw [h, List.take_left', List.drop_left']
  · rfl
  · rfl

theorem decompose_append_unix (P : Platform) (p vs : GoString) :
    decompose P p (p ++ vs ++ unixToolSuffix) = (P.ParseBinary vs).map (fun v => (v, Tgz)) := by
  unfold decompose
  rw [List.append_assoc, hasPrefix_append, ← List.append_assoc, hasSuffix_append,
    versionPart_append p vs unixToolSuffix rfl]
  simp

theorem decompose_append_windows (P : Platform) (p vs : GoString) :
    decompose P p (p ++ vs ++ windowsToolSuffix) = (P.ParseBinary vs).map (fun v => (v, Zip)) := by
  unfold decompose
  rw [hasSuffix_eq_false_of_ne (p ++ vs) windowsToolSuffix unixToolSuffix rfl (by decide)]
  rw [List.append_assoc, hasPrefix_append, ← List.append_assoc, hasSuffix_append,
    versionPart_append p vs windowsToolSuffix rfl]
  simp

theorem entriesFor_of_decompose (P : Platform) (stor : StorageReader) (pfx : GoString)
    (majorVersion minorVersion : Int) (name : GoString) (v : Binary) (ft : GoString)
    (hdc : decompose P pfx (toSlash P.Separator name) = some (v, ft))
    (hf : versionFilter majorVersion minorVersion v = true) :
    entriesFor P stor pfx majorVersion minorVersion name =
      withAlias P { Version := v, URL := urlOf stor (toSlash P.Separator name), SHA256 := [],
                    Size := 0, FileType := ft } := by
  simp [entriesFor, hdc, hf]

theorem matchingName_of_decompose (P : Platform) (pfx : GoString)
    (majorVersion minorVersion : Int) (name : GoString) (v : Binary) (ft : GoString)
    (hdc : decompose P pfx (toSlash P.Separator name) = some (v, ft))
    (hf : versionFilter majorVersion minorVersion v = true) :
    matchingName P pfx majorVersion minorVersion name = true := by
  simp [matchingName, hdc, hf]

theorem collect_congr (P : Platform) (s1 s2 : StorageReader) (pfx : GoString)
    (majorVersion minorVersion : Int) (h : s1.URL = s2.URL) (names : List GoString) :
    collect P s1 pfx majorVersion minorVersion names =
      collect P s2 pfx majorVersion minorVersion names := by
  induction names with
  | nil => rfl
  | cons n rest ih => simp only [collect, contrib, entriesFor, urlOf, h, ih]

theorem collect_insert_invalid (P : Platform) (stor : StorageReader) (pfx : GoString)
    (majorVersion minorVersion : Int) (bad : GoString) (hbad : validName P pfx bad = false)
    (pre post : List GoString) :
    collect P stor pfx majorVersion minorVersion (pre ++ bad :: post) =
      collect P stor pfx majorVersion minorVersion (pre ++ post) := by
  have hm : matchingName P pfx majorVersion minorVersion bad = false := by
    by_contra hc
    have := matchingName_validName P pfx majorVersion minorVersion bad (by simpa using hc)
    simp [hbad] at this
  induction pre with
  | nil =>
    simp only [List.nil_append]
    rw [collect, contrib_of_not_matching _ _ _ _ _ _ hm]
    cases collect P stor pfx majorVersion minorVersion post <;> simp
  | cons n pre ih =>
    rw [List.cons_append, List.cons_append, collect, collect, ih]

/-! ## Claims on `ReadList` -/

/-- C1. Whenever the listing succeeds and `ReadList` returns a list, that list is exactly the
concatenation, in store listing order, of the entries of the listed names: one entry
(followed by its legacy alias when the architecture is ppc64el) for each name that passes
the prefix check, the suffix check, the version parse and the major/minor filter, and
nothing for any other name; the store resolved the URL of every such name. -/
theorem ReadList_filter_correct (P : Platform) (stor : StorageReader) (toolsDir : GoString)
    (majorVersion minorVersion : Int) (names : List GoString) (l : List Tools)
    (hl : stor.List (storagePrefix toolsDir) = Except.ok names)
    (hres : ReadList P stor toolsDir majorVersion minorVersion = Result.ok l) :
    l = names.flatMap (entriesFor P stor (storagePrefix toolsDir) majorVersion minorVersion) ∧
      (∀ n ∈ names, matchingName P (storagePrefix toolsDir) majorVersion minorVersion n = true →
        stor.URL (toSlash P.Separator n) = Except.ok (urlOf stor (toSlash P.Separator n))) ∧
      (∀ n, matchingName P (storagePrefix toolsDir) majorVersion minorVersion n = false →
        entriesFor P stor (storagePrefix toolsDir) majorVersion minorVersion n = []) := by
  obtain ⟨h1, _, h3⟩ := ReadList_ok P stor toolsDir majorVersion minorVersion names l hl hres
  exact ⟨h1, h3, fun n hn => (entriesFor_eq_nil_iff _ _ _ _ _ n).mpr hn⟩

theorem ReadList_filter_correct_witness :
    ReadList (samplePlatform '/') (sampleStore sampleListing) "released".toList 1 (-1) =
        Result.ok
          [ sampleEntry 1 0 "amd64" "tools/released/juju-1.0.0-trusty-amd64.tgz" Tgz,
            sampleEntry 1 2 "amd64" "tools/released/juju-1.2.0-trusty-amd64.tgz" Tgz ] ∧
      [ sampleEntry 1 0 "amd64" "tools/released/juju-1.0.0-trusty-amd64.tgz" Tgz,
        sampleEntry 1 2 "amd64" "tools/released/juju-1.2.0-trusty-amd64.tgz" Tgz ] =
        sampleListing.flatMap (entriesFor (samplePlatform '/') (sampleStore sampleListing)
          (storagePrefix "released".toList) 1 (-1)) :=
  ⟨by decide,
    (ReadList_filter_correct (samplePlatform '/') (sampleStore sampleListing) "released".toList
      1 (-1) sampleListing _ rfl (by decide)).1⟩

/-- C2. When the listing succeeds and the store resolves the URL of every matching listed
name, `ReadList` has exactly one of three outcomes: `ErrNoTools` if and only if no listed
name is a valid bundle name; `ErrNoMatches` if and only if some listed name is valid but
none passes the major/minor filter; a non-empty list and no error if and only if some
listed name passes the filter. -/
theorem ReadList_outcomes (P : Platform) (stor : StorageReader) (toolsDir : GoString)
    (majorVersion minorVersion : Int) (names : List GoString)
    (hl : stor.List (storagePrefix toolsDir) = Except.ok names)
    (hurl : ∀ n ∈ names, matchingName P (storagePrefix toolsDir) majorVersion minorVersion n = true →
      ∃ u, stor.URL (toSlash P.Separator n) = Except.ok u) :
    (ReadList P stor toolsDir majorVersion minorVersion = Result.err Error.ErrNoTools ↔
        ∀ n ∈ names, validName P (storagePrefix toolsDir) n = false) ∧
      (ReadList P stor toolsDir majorVersion minorVersion = Result.err Error.ErrNoMatches ↔
        (∃ n ∈ names, validName P (storagePrefix toolsDir) n = true) ∧
          ∀ n ∈ names, matchingName P (storagePrefix toolsDir) majorVersion minorVersion n = false) ∧
      ((∃ l, l ≠ [] ∧ ReadList P stor toolsDir majorVersion minorVersion = Result.ok l) ↔
        ∃ n ∈ names, matchingName P (storagePrefix toolsDir) majorVersion minorVersion n = true) ∧
      (ReadList P stor toolsDir majorVersion minorVersion = Result.err Error.ErrNoTools ∨
        ReadList P stor toolsDir majorVersion minorVersion = Result.err Error.ErrNoMatches ∨
        ∃ l, l ≠ [] ∧ ReadList P stor toolsDir majorVersion minorVersion = Result.ok l) := by
  rw [ReadList_of_urls P stor toolsDir majorVersion minorVersion names hl hurl]
  have hnil := flatMap_entriesFor_eq_nil_iff P stor (storagePrefix toolsDir) majorVersion
    minorVersion names
  have hvalid : ∀ n, validName P (storagePrefix toolsDir) n = false →
      matchingName P (storagePrefix toolsDir) majorVersion minorVersion n = false := by
    intro n hn
    by_contra hc
    have := matchingName_validName P _ majorVersion minorVersion n (by simpa using hc)
    simp [hn] at this
  generalize names.flatMap (entriesFor P stor (storagePrefix toolsDir) majorVersion minorVersion)
    = es at hnil
  cases hany : names.any (validName P (storagePrefix toolsDir))
  · have hno : ∀ n ∈ names, validName P (storagePrefix toolsDir) n = false := by
      simpa using hany
    have hes : es = [] := hnil.mpr (fun n hn => hvalid n (hno n hn))
    subst hes
    have hnm := hnil.mp rfl
    refine ⟨by simpa [resultPolicy] using hno, ?_, ?_, by simp [resultPolicy]⟩
    · simp only [resultPolicy]
      constructor
      · intro h; simp at h
      · rintro ⟨⟨n, hn, hv⟩, _⟩
        simp [hno n hn] at hv
    · simp only [resultPolicy]
      constructor
      · rintro ⟨l, _, h⟩; simp at h
      · rintro ⟨n, hn, hm⟩
        simp [hnm n hn] at hm
  · have hsome : ∃ n ∈ names, validName P (storagePrefix toolsDir) n = true := by
      simpa using hany
    cases es with
    | nil =>
      have hnm := hnil.mp rfl
      refine ⟨?_, by simpa [resultPolicy, hsome] using hnm, ?_, by simp [resultPolicy]⟩
      · simp only [resultPolicy]
        constructor
        · intro h; simp at h
        · intro h
          obtain ⟨n, hn, hv⟩ := hsome
          simp [h n hn] at hv
      · simp only [resultPolicy]
        constructor
        · rintro ⟨l, _, h⟩; simp at h
        · rintro ⟨n, hn, hm⟩
          simp [hnm n hn] at hm
    | cons e es =>
      have hex : ∃ n ∈ names, matchingName P (storagePrefix toolsDir) majorVersion minorVersion n = true := by
        by_contra hc
        have : ∀ n ∈ names, matchingName P (storagePrefix toolsDir) majorVersion minorVersion n = false := by
          intro n hn
          by_contra h2
          exact hc ⟨n, hn, by simpa using h2⟩
        simpa using hnil.mpr this
      refine ⟨?_, ?_, ?_, ?_⟩
      · simp only [resultPolicy]
        constructor
        · intro h; simp at h
        · intro h
          obtain ⟨n, hn, hv⟩ := hsome
          simp [h n hn] at hv
      · simp only [resultPolicy]
        constructor
        · intro h; simp at h
        · rintro ⟨_, h⟩
          obtain ⟨n, hn, hm⟩ := hex
          simp [h n hn] at hm
      · constructor
        · intro _; exact hex
        · intro _; exact ⟨e :: es, by simp, by simp [resultPolicy]⟩
      · right; right
        exact ⟨e :: es, by simp, by simp [resultPolicy]⟩

theorem ReadList_outcomes_witness :
    (ReadList (samplePlatform '/') (sampleStore sampleListing) "released".toList 3 (-1) =
        Result.err Error.ErrNoMatches) ∧
      ¬ (ReadList (samplePlatform '/') (sampleStore sampleListing) "released".toList 3 (-1) =
        Result.err Error.ErrNoTools) :=
  ⟨(ReadList_outcomes (samplePlatform '/') (sampleStore sampleListing) "released".toList 3 (-1)
      sampleListing rfl (fun _ _ _ => ⟨_, rfl⟩)).2.1.mpr ⟨by decide, by decide⟩,
    fun h => absurd ((ReadList_outcomes (samplePlatform '/') (sampleStore sampleListing)
      "released".toList 3 (-1) sampleListing rfl (fun _ _ _ => ⟨_, rfl⟩)).1.mp h) (by decide)⟩

/-- C3 (counterexample). The naming round trip does not hold for every store and platform:
(a) on a store that lists the composed name but cannot resolve its URL, `ReadList` returns
the store's error instead of one entry; (b) on a platform whose path separator is the
backslash, a stream containing a backslash is rewritten by `filepath.ToSlash`, the composed
name no longer carries the stream prefix, and `ReadList` returns `ErrNoTools`. -/
theorem StorageName_round_trip_counterexample :
    (sampleParseBinary (sampleBinaryString (sampleBinary 1 0 "amd64")) =
        some (sampleBinary 1 0 "amd64") ∧
      (sampleBinary 1 0 "amd64").Arch ≠ (samplePlatform '/').PPC64EL ∧
      ¬ ∃ t, ReadList (samplePlatform '/')
          (offlineStore [StorageName (samplePlatform '/') (sampleBinary 1 0 "amd64")
            "released".toList unixToolSuffix])
          "released".toList 1 (-1) = Result.ok [t]) ∧
    (¬ ∃ t, ReadList (samplePlatform '\\')
          (sampleStore [StorageName (samplePlatform '\\') (sampleBinary 1 0 "amd64")
            "a\\b".toList unixToolSuffix])
          "a\\b".toList 1 (-1) = Result.ok [t]) := by
  refine ⟨⟨by decide, by decide, ?_⟩, ?_⟩
  · have h : ReadList (samplePlatform '/')
        (offlineStore [StorageName (samplePlatform '/') (sampleBinary 1 0 "amd64")
          "released".toList unixToolSuffix])
        "released".toList 1 (-1) = Result.err (Error.other "offline".toList) := by decide
    rw [h]
    rintro ⟨t, ht⟩
    cases ht
  · have h : ReadList (samplePlatform '\\')
        (sampleStore [StorageName (samplePlatform '\\') (sampleBinary 1 0 "amd64")
          "a\\b".toList unixToolSuffix])
        "a\\b".toList 1 (-1) = Result.err Error.ErrNoTools := by decide
    rw [h]
    rintro ⟨t, ht⟩
    cases ht

/-- C3 (amended). Naming round trip: for every stream, every version `v` that
`version.ParseBinary` reads back from `v.String()` and whose architecture is not ppc64el,
and every suffix among `.tgz` and `.zip`, if `filepath.ToSlash` leaves the composed name
unchanged and the store resolves its URL, then `ReadList` over a store listing exactly
that name, asked for `v.Major` and minor `-1` or `v.Minor`, returns exactly one entry,
whose version is `v`, whose file type is the suffix without its dot and whose URL is the
resolved one. -/
theorem StorageName_round_trip (P : Platform) (stor : StorageReader) (stream : GoString)
    (v : Binary) (suffix : GoString) (minorVersion : Int) (u : GoString)
    (hparse : P.ParseBinary (P.BinaryString v) = some v)
    (harch : v.Arch ≠ P.PPC64EL)
    (hsuf : suffix = unixToolSuffix ∨ suffix = windowsToolSuffix)
    (hmin : minorVersion = -1 ∨ minorVersion = v.Minor)
    (hl : stor.List (storagePrefix stream) = Except.ok [StorageName P v stream suffix])
    (hslash : toSlash P.Separator (StorageName P v stream suffix) = StorageName P v stream suffix)
    (hurl : stor.URL (StorageName P v stream suffix) = Except.ok u) :
    ReadList P stor stream v.Major minorVersion =
      Result.ok [{ Version := v, URL := u, SHA256 := [], Size := 0, FileType := suffix.drop 1 }] := by
  have hdc : decompose P (storagePrefix stream) (toSlash P.Separator (StorageName P v stream suffix))
      = some (v, suffix.drop 1) := by
    rw [hslash]
    unfold StorageName
    rcases hsuf with rfl | rfl
    · rw [decompose_append_unix, hparse]; rfl
    · rw [decompose_append_windows, hparse]; rfl
  have hf : versionFilter v.Major minorVersion v = true := by
    rcases hmin with rfl | rfl <;> simp [versionFilter]
  have hm := matchingName_of_decompose P (storagePrefix stream) v.Major minorVersion _ v _ hdc hf
  rw [ReadList_of_urls P stor stream v.Major minorVersion _ hl]
  · rw [List.flatMap_cons, List.flatMap_nil, List.append_nil,
      entriesFor_of_decompose P stor (storagePrefix stream) v.Major minorVersion _ v _ hdc hf]
    simp [withAlias, harch, resultPolicy, urlOf, hslash, hurl]
  · intro n hn _
    rw [List.mem_singleton] at hn
    subst hn
    exact ⟨u, by rw [hslash, hurl]⟩

theorem StorageName_round_trip_witness :
    ReadList (samplePlatform '/')
        (sampleStore [StorageName (samplePlatform '/') (sampleBinary 2 1 "amd64")
          "released".toList windowsToolSuffix])
        "released".toList 2 1 =
      Result.ok [{ Version := sampleBinary 2 1 "amd64",
                   URL := "https://store/tools/released/juju-2.1.0-trusty-amd64.zip".toList,
                   SHA256 := [], Size := 0, FileType := "zip".toList }] :=
  StorageName_round_trip (samplePlatform '/') _ "released".toList (sampleBinary 2 1 "amd64")
    windowsToolSuffix 1 _ (by decide) (by decide) (Or.inr rfl) (Or.inr rfl) rfl (by decide) rfl

/-- C4 (failing input). The doc comment of `ReadList` promises `ErrNoMatches` whenever the
store holds no tools of the requested version; on a store that holds no tools at all,
and on a store that lists only a malformed name, `ReadList` returns `ErrNoTools`
instead. -/
theorem ReadList_empty_store_ErrNoTools :
    ReadList (samplePlatform '/') (sampleStore []) "released".toList 1 (-1) ≠
        Result.err Error.ErrNoMatches ∧
      ReadList (samplePlatform '/') (sampleStore []) "released".toList 1 (-1) =
        Result.err Error.ErrNoTools ∧
      ReadList (samplePlatform '/') (sampleStore ["tools/released/juju-README.txt".toList])
        "released".toList 1 (-1) = Result.err Error.ErrNoTools := by
  decide

/-- Where the documented failure does hold: for every store listing that holds at least one
valid bundle name but no tools with the requested major.minor version (minor ignored
when it is negative), `ReadList` returns `ErrNoMatches`. -/
theorem ReadList_no_matches (P : Platform) (stor : StorageReader) (toolsDir : GoString)
    (majorVersion minorVersion : Int) (names : List GoString)
    (hl : stor.List (storagePrefix toolsDir) = Except.ok names)
    (hvalid : ∃ n ∈ names, validName P (storagePrefix toolsDir) n = true)
    (hnone : ∀ n ∈ names, matchingName P (storagePrefix toolsDir) majorVersion minorVersion n = false) :
    ReadList P stor toolsDir majorVersion minorVersion = Result.err Error.ErrNoMatches := by
  rw [ReadList_of_urls P stor toolsDir majorVersion minorVersion names hl
    (fun n hn hm => by simp [hnone n hn] at hm)]
  rw [(flatMap_entriesFor_eq_nil_iff P stor _ majorVersion minorVersion names).mpr hnone]
  have hany : names.any (validName P (storagePrefix toolsDir)) = true := by
    simpa using hvalid
  simp [resultPolicy, hany]

theorem ReadList_no_matches_sample :
    ReadList (samplePlatform '/') (sampleStore sampleListing) "released".toList 3 (-1) =
      Result.err Error.ErrNoMatches :=
  ReadList_no_matches (samplePlatform '/') (sampleStore sampleListing) "released".toList 3 (-1)
    sampleListing rfl (by decide) (by decide)

/-- C5. Legacy architecture aliasing: when `ReadList` returns a list, a listed valid bundle
name that passes the filter contributes, at its place between the entries of the names
listed before it and those of the names listed after it, two consecutive entries when its
architecture is ppc64el (the first with its parsed version, architecture ppc64el included,
the second equal to the first in URL, SHA256, Size, FileType, Major, Minor, Patch and OS,
with architecture LEGACY_PPC64) and exactly one entry otherwise. -/
theorem ReadList_legacy_alias (P : Platform) (stor : StorageReader) (toolsDir : GoString)
    (majorVersion minorVersion : Int) (pre post : List GoString) (name : GoString)
    (l : List Tools) (v : Binary) (ft : GoString)
    (hl : stor.List (storagePrefix toolsDir) = Except.ok (pre ++ name :: post))
    (hres : ReadList P stor toolsDir majorVersion minorVersion = Result.ok l)
    (hdc : decompose P (storagePrefix toolsDir) (toSlash P.Separator name) = some (v, ft))
    (hf : versionFilter majorVersion minorVersion v = true) :
    ∃ t : Tools, t.Version = v ∧
      stor.URL (toSlash P.Separator name) = Except.ok t.URL ∧ t.FileType = ft ∧
      (v.Arch = P.PPC64EL →
        ∃ t2 : Tools,
          l = pre.flatMap (entriesFor P stor (storagePrefix toolsDir) majorVersion minorVersion)
              ++ [t, t2]
              ++ post.flatMap (entriesFor P stor (storagePrefix toolsDir) majorVersion minorVersion) ∧
          t.Version.Arch = P.PPC64EL ∧ t2.Version.Arch = P.LEGACY_PPC64 ∧
          t2.URL = t.URL ∧ t2.SHA256 = t.SHA256 ∧ t2.Size = t.Size ∧ t2.FileType = t.FileType ∧
          t2.Version.Major = t.Version.Major ∧ t2.Version.Minor = t.Version.Minor ∧
          t2.Version.Patch = t.Version.Patch ∧ t2.Version.OS = t.Version.OS) ∧
      (v.Arch ≠ P.PPC64EL →
        l = pre.flatMap (entriesFor P stor (storagePrefix toolsDir) majorVersion minorVersion)
              ++ [t]
              ++ post.flatMap (entriesFor P stor (storagePrefix toolsDir) majorVersion minorVersion)) := by
  obtain ⟨h1, _, h3⟩ := ReadList_ok P stor toolsDir majorVersion minorVersion _ l hl hres
  have hm := matchingName_of_decompose P (storagePrefix toolsDir) majorVersion minorVersion
    name v ft hdc hf
  have he := entriesFor_of_decompose P stor (storagePrefix toolsDir) majorVersion minorVersion
    name v ft hdc hf
  rw [List.flatMap_append, List.flatMap_cons, he, ← List.append_assoc] at h1
  refine ⟨{ Version := v, URL := urlOf stor (toSlash P.Separator name), SHA256 := [],
            Size := 0, FileType := ft }, rfl, h3 name (by simp) hm, rfl, ?_, ?_⟩
  · intro ha
    refine ⟨legacyAlias P ⟨v, urlOf stor (toSlash P.Separator name), [], 0, ft⟩,
      ?_, ha, rfl, rfl, rfl, rfl, rfl, rfl, rfl, rfl, rfl⟩
    rw [h1]
    simp [withAlias, ha]
  · intro ha
    rw [h1]
    simp [withAlias, ha]

theorem ReadList_legacy_alias_witness :
    ∃ t t2 : Tools, t.Version = sampleBinary 2 0 "ppc64el" ∧
      t2.Version = sampleBinary 2 0 "ppc64" ∧
      [ sampleEntry 2 0 "amd64" "tools/released/juju-2.0.0-trusty-amd64.tgz" Tgz,
        sampleEntry 2 0 "ppc64el" "tools/released/juju-2.0.0-trusty-ppc64el.tgz" Tgz,
        sampleEntry 2 0 "ppc64" "tools/released/juju-2.0.0-trusty-ppc64el.tgz" Tgz ] =
      [ sampleEntry 2 0 "amd64" "tools/released/juju-2.0.0-trusty-amd64.tgz" Tgz, t, t2 ] := by
  obtain ⟨t, hv, _, _, hp, _⟩ := ReadList_legacy_alias (samplePlatform '/')
    (sampleStore samplePowerListing) "released".toList 2 (-1)
    ["tools/released/juju-2.0.0-trusty-amd64.tgz".toList] []
    "tools/released/juju-2.0.0-trusty-ppc64el.tgz".toList
    [ sampleEntry 2 0 "amd64" "tools/released/juju-2.0.0-trusty-amd64.tgz" Tgz,
      sampleEntry 2 0 "ppc64el" "tools/released/juju-2.0.0-trusty-ppc64el.tgz" Tgz,
      sampleEntry 2 0 "ppc64" "tools/released/juju-2.0.0-trusty-ppc64el.tgz" Tgz ]
    (sampleBinary 2 0 "ppc64el") Tgz rfl (by decide) (by decide) (by decide)
  obtain ⟨t2, h1, _, h2, _, _, _, _, h3, h4, h5, h6⟩ := hp (by decide)
  refine ⟨t, t2, hv, ?_, ?_⟩
  · have hM : t2.Version.Major = 2 := by rw [h3, hv]; rfl
    have hm : t2.Version.Minor = 0 := by rw [h4, hv]; rfl
    have hP : t2.Version.Patch = 0 := by rw [h5, hv]; rfl
    have hO : t2.Version.OS = 1 := by rw [h6, hv]; rfl
    cases hb : t2.Version with
    | mk a b c d e =>
      rw [hb] at hM hm hP hO h2
      simp only at hM hm hP hO h2
      subst hM hm hP hO h2
      rfl
  · rw [h1]
    rfl

/-- C6. Tolerance of store pollution: inserting a name that is not a valid bundle name at any
position of the listing does not change the outcome of `ReadList` (the same list, the same
error or the same failure). -/
theorem ReadList_ignores_invalid (P : Platform) (s1 s2 : StorageReader) (toolsDir : GoString)
    (majorVersion minorVersion : Int) (pre post : List GoString) (bad : GoString)
    (hurl : s1.URL = s2.URL)
    (hl1 : s1.List (storagePrefix toolsDir) = Except.ok (pre ++ post))
    (hl2 : s2.List (storagePrefix toolsDir) = Except.ok (pre ++ bad :: post))
    (hbad : validName P (storagePrefix toolsDir) bad = false) :
    ReadList P s2 toolsDir majorVersion minorVersion =
      ReadList P s1 toolsDir majorVersion minorVersion := by
  rw [ReadList_eq P s1 toolsDir majorVersion minorVersion _ hl1,
    ReadList_eq P s2 toolsDir majorVersion minorVersion _ hl2,
    collect_congr P s2 s1 _ majorVersion minorVersion hurl.symm,
    collect_insert_invalid P s1 _ majorVersion minorVersion bad hbad]
  have hany : (pre ++ bad :: post).any (validName P (storagePrefix toolsDir)) =
      (pre ++ post).any (validName P (storagePrefix toolsDir)) := by
    simp [hbad]
  rw [hany]

theorem ReadList_ignores_invalid_witness :
    ReadList (samplePlatform '/') (sampleStore samplePollutedListing) "released".toList 1 (-1) =
      ReadList (samplePlatform '/') (sampleStore sampleListing) "released".toList 1 (-1) :=
  ReadList_ignores_invalid (samplePlatform '/') (sampleStore sampleListing)
    (sampleStore samplePollutedListing) "released".toList 1 (-1)
    [ "tools/released/juju-1.0.0-trusty-amd64.tgz".toList,
      "tools/released/juju-1.2.0-trusty-amd64.tgz".toList ]
    [ "tools/released/juju-2.0.0-trusty-amd64.tgz".toList,
      "tools/released/juju-2.1.0-trusty-amd64.zip".toList ]
    "tools/released/juju-README.txt".toList rfl rfl rfl (by decide)

/-! ## Lemmas on the legacy resolver -/

namespace Environs

theorem Less_iff (v w : Version) :
    v.Less w = true ↔
      v.Major < w.Major ∨ (v.Major = w.Major ∧
        (v.Minor < w.Minor ∨ (v.Minor = w.Minor ∧ v.Patch < w.Patch))) := by
  unfold Version.Less
  split_ifs <;> simp <;> omega

theorem Less_trans (a b c : Version) (h1 : a.Less b = true) (h2 : b.Less c = true) :
    a.Less c = true := by
  rw [Less_iff] at *
  omega

theorem Less_asymm (a b : Version) (h1 : a.Less b = true) : ¬ b.Less a = true := by
  rw [Less_iff] at *
  omega

theorem Less_of_not_Less_of_Less (a b c : Version) (h1 : ¬ b.Less a = true)
    (h2 : b.Less c = true) : a.Less c = true := by
  rw [Less_iff] at *
  omega

theorem not_Less_of_not_Less (a b c : Version) (h1 : ¬ b.Less a = true)
    (h2 : ¬ c.Less b = true) : ¬ c.Less a = true := by
  rw [Less_iff] at *
  omega

theorem compatibleVersion_major (R : Runtime) (name : GoString) (v : Version)
    (h : compatibleVersion R name = some v) : v.Major = R.Current.Major := by
  unfold compatibleVersion at h
  split at h
  · cases h
  · split at h
    · cases h
    · split at h
      · rename_i hc
        injection h with h
        subst h
        exact hc.2.2
      · cases h

theorem bestLoop_cons (R : Runtime) (name : GoString) (rest : List GoString)
    (bestVersion : Version) (bestName : GoString) :
    bestLoop R (name :: rest) bestVersion bestName =
      match compatibleVersion R name with
      | none => bestLoop R rest bestVersion bestName
      | some vers =>
        if bestVersion.Less vers = true then bestLoop R rest vers name
        else bestLoop R rest bestVersion bestName := by
  rw [bestLoop]
  unfold compatibleVersion
  cases hm : toolFilePat name with
  | none => rfl
  | some m =>
    obtain ⟨m1, m2, m3⟩ := m
    simp only []
    cases hp : R.Parse m1 with
    | none => rfl
    | some vers =>
      simp only []
      by_cases h2 : m2 = currentSeries
      · by_cases h3 : m3 = currentArch R
        · by_cases hM : vers.Major = R.Current.Major
          · simp [h2, h3, hM]
          · simp [h2, h3, hM]
        · simp [h2, h3]
      · simp [h2]

/-- Invariant of the loop of `findToolsPath`: the final best version is below no compatible
listed version nor the initial one, and either nothing was selected, or the selected name
is a compatible listed name carrying the final version, strictly above the initial
version and above every compatible name listed before it. -/
theorem bestLoop_spec (R : Runtime) (names : List GoString) (bv : Version) (bn : GoString) :
    (∀ n ∈ names, ∀ w, compatibleVersion R n = some w →
        ¬ (bestLoop R names bv bn).1.Less w = true) ∧
      ¬ (bestLoop R names bv bn).1.Less bv = true ∧
      ((bestLoop R names bv bn = (bv, bn) ∧
          ∀ n ∈ names, ∀ w, compatibleVersion R n = some w → ¬ bv.Less w = true) ∨
        ∃ pre post, names = pre ++ (bestLoop R names bv bn).2 :: post ∧
          compatibleVersion R (bestLoop R names bv bn).2 = some (bestLoop R names bv bn).1 ∧
          bv.Less (bestLoop R names bv bn).1 = true ∧
          ∀ n ∈ pre, ∀ w, compatibleVersion R n = some w →
            w.Less (bestLoop R names bv bn).1 = true) := by
  induction names generalizing bv bn with
  | nil =>
    refine ⟨by simp, ?_, Or.inl ⟨rfl, by simp⟩⟩
    simp [bestLoop, Less_iff]
  | cons name rest ih =>
    rw [bestLoop_cons]
    cases hc : compatibleVersion R name with
    | none =>
      simp only []
      obtain ⟨h1, h2, h3⟩ := ih bv bn
      refine ⟨?_, h2, ?_⟩
      · intro n hn w hw
        rcases List.mem_cons.mp hn with rfl | hn
        · rw [hc] at hw; cases hw
        · exact h1 n hn w hw
      · rcases h3 with ⟨h3, h4⟩ | ⟨pre, post, h3, h4, h5, h6⟩
        · left
          refine ⟨h3, ?_⟩
          intro n hn w hw
          rcases List.mem_cons.mp hn with rfl | hn
          · rw [hc] at hw; cases hw
          · exact h4 n hn w hw
        · right
          refine ⟨name :: pre, post, by rw [List.cons_append, ← h3], h4, h5, ?_⟩
          intro n hn w hw
          rcases List.mem_cons.mp hn with rfl | hn
          · rw [hc] at hw; cases hw
          · exact h6 n hn w hw
    | some v =>
      simp only []
      by_cases hl : bv.Less v = true
      · rw [if_pos hl]
        obtain ⟨h1, h2, h3⟩ := ih v name
        have hbv2 : bv.Less (bestLoop R rest v name).1 = true := by
          rcases h3 with ⟨h3, _⟩ | ⟨_, _, _, _, h5, _⟩
          · rw [h3]; exact hl
          · exact Less_trans _ _ _ hl h5
        refine ⟨?_, Less_asymm _ _ hbv2, ?_⟩
        · intro n hn w hw
          rcases List.mem_cons.mp hn with rfl | hn
          · rw [hc] at hw
            injection hw with hw
            subst hw
            exact h2
          · exact h1 n hn w hw
        · right
          rcases h3 with ⟨h3, _⟩ | ⟨pre, post, h3, h4, h5, h6⟩
          · refine ⟨[], rest, by rw [h3]; rfl, by rw [h3]; exact hc, by rw [h3]; exact hl, by simp⟩
          · refine ⟨name :: pre, post, by rw [List.cons_append, ← h3], h4, hbv2, ?_⟩
            intro n hn w hw
            rcases List.mem_cons.mp hn with rfl | hn
            · rw [hc] at hw
              injection hw with hw
              subst hw
              exact h5
            · exact h6 n hn w hw
      · rw [if_neg hl]
        obtain ⟨h1, h2, h3⟩ := ih bv bn
        refine ⟨?_, h2, ?_⟩
        · intro n hn w hw
          rcases List.mem_cons.mp hn with rfl | hn
          · rw [hc] at hw
            injection hw with hw
            subst hw
            exact not_Less_of_not_Less _ _ _ hl h2
          · exact h1 n hn w hw
        · rcases h3 with ⟨h3, h4⟩ | ⟨pre, post, h3, h4, h5, h6⟩
          · left
            refine ⟨h3, ?_⟩
            intro n hn w hw
            rcases List.mem_cons.mp hn with rfl | hn
            · rw [hc] at hw
              injection hw with hw
              subst hw
              exact hl
            · exact h4 n hn w hw
          · right
            refine ⟨name :: pre, post, by rw [List.cons_append, ← h3], h4, h5, ?_⟩
            intro n hn w hw
            rcases List.mem_cons.mp hn with rfl | hn
            · rw [hc] at hw
              injection hw with hw
              subst hw
              exact Less_of_not_Less_of_Less _ _ _ hl h5
            · exact h6 n hn w hw

theorem findToolsPath_eq (R : Runtime) (store : StorageReader) (names : List GoString)
    (hl : store.List (toolPrefix ++ formatInt R.Current.Major ++ ".".toList) = Except.ok names) :
    findToolsPath R store =
      if names.length = 0 then Except.error (EnvError.NotFound "no tools found".toList)
      else if (bestLoop R names { Major := -1, Minor := 0, Patch := 0 } []).1.Major < 0 then
        Except.error (EnvError.NotFound "no compatible tools found".toList)
      else Except.ok (bestLoop R names { Major := -1, Minor := 0, Patch := 0 } []).2 := by
  unfold findToolsPath
  rw [hl]

theorem initial_Less (R : Runtime) (hcur : 0 ≤ R.Current.Major) (name : GoString) (w : Version)
    (hw : compatibleVersion R name = some w) :
    Version.Less { Major := -1, Minor := 0, Patch := 0 } w = true := by
  have := compatibleVersion_major R name w hw
  rw [Less_iff]
  left
  simp only
  omega

theorem mem_of_split (names pre post : List GoString) (b : GoString)
    (h : names = pre ++ b :: post) : b ∈ names := by
  rw [h]
  simp

/-! ## Claims on the legacy resolver -/

/-- C7. The legacy resolver picks the latest compatible tools: when the listing holds at least
one compatible name (and `version.Current` has a non-negative major, as every parsed
version has), `findToolsPath` succeeds and returns a listed compatible name whose version
is not `Less` than that of any compatible listed name, and every compatible name listed
before the returned one has a strictly lower version, so that among the names sharing
the highest version the first in listing order is the one returned. -/
theorem findToolsPath_latest (R : Runtime) (store : StorageReader) (names : List GoString)
    (hl : store.List (toolPrefix ++ formatInt R.Current.Major ++ ".".toList) = Except.ok names)
    (hcur : 0 ≤ R.Current.Major)
    (hex : ∃ n ∈ names, (compatibleVersion R n).isSome = true) :
    ∃ best v, findToolsPath R store = Except.ok best ∧ best ∈ names ∧
      compatibleVersion R best = some v ∧
      (∀ n ∈ names, ∀ w, compatibleVersion R n = some w → ¬ v.Less w = true) ∧
      ∃ pre post, names = pre ++ best :: post ∧
        ∀ n ∈ pre, ∀ w, compatibleVersion R n = some w → w.Less v = true := by
  obtain ⟨n0, hn0, hc0⟩ := hex
  obtain ⟨w0, hw0⟩ := Option.isSome_iff_exists.mp hc0
  obtain ⟨h1, _, h3⟩ := bestLoop_spec R names { Major := -1, Minor := 0, Patch := 0 } []
  rcases h3 with ⟨_, h4⟩ | ⟨pre, post, h3, h4, h5, h6⟩
  · exact absurd (initial_Less R hcur n0 w0 hw0) (h4 n0 hn0 w0 hw0)
  · have hM := compatibleVersion_major R _ _ h4
    have hne : names.length ≠ 0 := by
      intro h
      rw [List.length_eq_zero] at h
      rw [h] at hn0
      cases hn0
    refine ⟨_, _, ?_, mem_of_split _ _ _ _ h3, h4, h1, pre, post, h3, h6⟩
    rw [findToolsPath_eq R store names hl, if_neg hne, if_neg (by omega)]

theorem findToolsPath_latest_witness :
    findToolsPath sampleRuntime (sampleLegacyStore sampleLegacyListing "jujud") =
        Except.ok "tools/juju-1.10.0-precise-amd64.tgz".toList ∧
      ∃ best v, findToolsPath sampleRuntime (sampleLegacyStore sampleLegacyListing "jujud") =
          Except.ok best ∧ best ∈ sampleLegacyListing ∧
        compatibleVersion sampleRuntime best = some v ∧
        (∀ n ∈ sampleLegacyListing, ∀ w, compatibleVersion sampleRuntime n = some w →
          ¬ v.Less w = true) ∧
        ∃ pre post, sampleLegacyListing = pre ++ best :: post ∧
          ∀ n ∈ pre, ∀ w, compatibleVersion sampleRuntime n = some w → w.Less v = true :=
  ⟨rfl,
    findToolsPath_latest sampleRuntime (sampleLegacyStore sampleLegacyListing "jujud")
      sampleLegacyListing rfl (by decide)
      ⟨"tools/juju-1.2.3-precise-amd64.tgz".toList, by decide, by decide⟩⟩

/-- C8. Legacy resolver failures: when the listing under the major-version prefix succeeds
(and `version.Current` has a non-negative major), `findToolsPath` fails with the
`NotFoundError` "no tools found" if and only if the listing is empty, fails with the
distinct error "no compatible tools found" if and only if the listing is non-empty and
holds no compatible name, and returns a name without error if and only if the listing
holds a compatible name. -/
theorem findToolsPath_failures (R : Runtime) (store : StorageReader) (names : List GoString)
    (hl : store.List (toolPrefix ++ formatInt R.Current.Major ++ ".".toList) = Except.ok names)
    (hcur : 0 ≤ R.Current.Major) :
    (findToolsPath R store = Except.error (EnvError.NotFound "no tools found".toList) ↔
        names = []) ∧
      (findToolsPath R store =
          Except.error (EnvError.NotFound "no compatible tools found".toList) ↔
        names ≠ [] ∧ ∀ n ∈ names, compatibleVersion R n = none) ∧
      ((∃ path, findToolsPath R store = Except.ok path) ↔
        ∃ n ∈ names, (compatibleVersion R n).isSome = true) ∧
      EnvError.NotFound "no tools found".toList ≠
        EnvError.NotFound "no compatible tools found".toList := by
  have hdiff : EnvError.NotFound "no tools found".toList ≠
      EnvError.NotFound "no compatible tools found".toList := by decide
  rw [findToolsPath_eq R store names hl]
  by_cases hnil : names = []
  · subst hnil
    refine ⟨by simp, ?_, ?_, hdiff⟩
    · simp only [List.length_nil, if_true, ne_eq, not_true_eq_false, false_and, iff_false]
      intro h
      injection h with h
      exact hdiff h
    · simp
  · have hne : names.length ≠ 0 := by simpa using hnil
    rw [if_neg hne]
    obtain ⟨h1, _, h3⟩ := bestLoop_spec R names { Major := -1, Minor := 0, Patch := 0 } []
    rcases h3 with ⟨h3, h4⟩ | ⟨pre, post, h3, h4, h5, h6⟩
    · have hno : ∀ n ∈ names, compatibleVersion R n = none := by
        intro n hn
        cases hc : compatibleVersion R n with
        | none => rfl
        | some w => exact absurd (initial_Less R hcur n w hc) (h4 n hn w hc)
      rw [h3, if_pos (by decide)]
      refine ⟨?_, ?_, ?_, hdiff⟩
      · simp only [hnil, iff_false]
        intro h
        injection h with h
        exact hdiff h.symm
      · simp only [true_iff]
        exact ⟨hnil, hno⟩
      · constructor
        · rintro ⟨_, h⟩
          cases h
        · rintro ⟨n, hn, hc⟩
          rw [hno n hn] at hc
          cases hc
    · have hM := compatibleVersion_major R _ _ h4
      have hmem := mem_of_split _ _ _ _ h3
      rw [if_neg (by omega)]
      refine ⟨?_, ?_, ?_, hdiff⟩
      · simp only [hnil, iff_false]
        intro h
        cases h
      · constructor
        · intro h
          cases h
        · rintro ⟨_, h⟩
          rw [h _ hmem] at h4
          cases h4
      · constructor
        · intro _
          exact ⟨_, hmem, by rw [h4]; rfl⟩
        · intro _
          exact ⟨_, rfl⟩

theorem findToolsPath_failures_witness :
    findToolsPath sampleRuntime (sampleLegacyStore [] "jujud") =
        Except.error (EnvError.NotFound "no tools found".toList) ∧
      findToolsPath sampleRuntime (sampleLegacyStore ["tools/juju-2.0.0-precise-amd64.tgz".toList]
          "jujud") =
        Except.error (EnvError.NotFound "no compatible tools found".toList) :=
  ⟨(findToolsPath_failures sampleRuntime (sampleLegacyStore [] "jujud") [] rfl
      (by decide)).1.mpr rfl,
    (findToolsPath_failures sampleRuntime
      (sampleLegacyStore ["tools/juju-2.0.0-precise-amd64.tgz".toList] "jujud")
      ["tools/juju-2.0.0-precise-amd64.tgz".toList] rfl (by decide)).2.1.mpr
      ⟨by decide, by decide⟩⟩

/-- C9. Private store first, public store as fallback: `findTools` returns the private store
with its best tools path whenever `findToolsPath` succeeds on the private store; when the
private search fails with a `*NotFoundError` its result is exactly that of the public
search (the public store and its path, or the public search's error); a private error
of any other kind is returned as is; and unless the private search fails with a
`*NotFoundError` the public store has no influence on the result. -/
theorem findTools_private_first (R : Runtime) (env : Environ) :
    (∀ path, findToolsPath R env.Storage = Except.ok path →
        findTools R env = Except.ok (env.Storage, path)) ∧
      (∀ msg, findToolsPath R env.Storage = Except.error (EnvError.NotFound msg) →
        findTools R env =
          match findToolsPath R env.PublicStorage with
          | Except.ok path => Except.ok (env.PublicStorage, path)
          | Except.error e => Except.error e) ∧
      (∀ e, findToolsPath R env.Storage = Except.error e → (∀ msg, e ≠ EnvError.NotFound msg) →
        findTools R env = Except.error e) ∧
      ((∀ msg, findToolsPath R env.Storage ≠ Except.error (EnvError.NotFound msg)) →
        ∀ other : StorageReader,
          findTools R { Storage := env.Storage, PublicStorage := other } = findTools R env) := by
  refine ⟨?_, ?_, ?_, ?_⟩
  · intro path h
    simp [findTools, h, isNotFound]
  · intro msg h
    simp only [findTools, h, isNotFound, if_true]
    cases findToolsPath R env.PublicStorage <;> rfl
  · intro e h hne
    cases e with
    | NotFound msg => exact absurd rfl (hne msg)
    | badName n => simp [findTools, h, isNotFound]
    | tarExtract n c => simp [findTools, h, isNotFound]
    | other m => simp [findTools, h, isNotFound]
  · intro hne other
    cases h : findToolsPath R env.Storage with
    | ok path => simp [findTools, h, isNotFound]
    | error e =>
      cases e with
      | NotFound msg => exact absurd h (hne msg)
      | badName n => simp [findTools, h, isNotFound]
      | tarExtract n c => simp [findTools, h, isNotFound]
      | other m => simp [findTools, h, isNotFound]

theorem findTools_private_first_witness :
    findTools sampleRuntime
        { Storage := sampleLegacyStore [] "jujud",
          PublicStorage := sampleLegacyStore sampleLegacyListing "jujud" } =
      Except.ok (sampleLegacyStore sampleLegacyListing "jujud",
        "tools/juju-1.10.0-precise-amd64.tgz".toList) :=
  ((findTools_private_first sampleRuntime
    { Storage := sampleLegacyStore [] "jujud",
      PublicStorage := sampleLegacyStore sampleLegacyListing "jujud" }).2.1
    "no tools found".toList rfl).trans rfl

/-! ## Evaluation of the fetcher -/

/-- C10 (failing input). An archive entry named `../evil` passes the name check of `GetTools`
(it does not contain a slash followed by a backslash), and `GetTools` calls `writeFile`
on `/opt/juju/evil`, outside the destination directory `/opt/juju/bin`; an entry named
`sub/evil`, which holds a path separator, is accepted as well.  Neither is rejected with a
"bad name" error. -/
theorem GetTools_writes_outside_dir :
    GetTools sampleRuntime (fun _ => none)
        { Storage := sampleLegacyStore sampleLegacyListing "../evil",
          PublicStorage := brokenLegacyStore } "/opt/juju/bin".toList =
      ([{ name := "/opt/juju/evil".toList, mode := 493 }], none) ∧
    insideDir "/opt/juju/bin".toList "/opt/juju/evil".toList = false ∧
    GetTools sampleRuntime (fun _ => none)
        { Storage := sampleLegacyStore sampleLegacyListing "sub/evil",
          PublicStorage := brokenLegacyStore } "/opt/juju/bin".toList =
      ([{ name := "/opt/juju/bin/sub/evil".toList, mode := 493 }], none) := by
  decide

theorem GetTools_sample_jujud :
    GetTools sampleRuntime (fun _ => none)
        { Storage := sampleLegacyStore sampleLegacyListing "jujud",
          PublicStorage := brokenLegacyStore } "/opt/juju/bin".toList =
      ([{ name := "/opt/juju/bin/jujud".toList, mode := 493 }], none) := by
  decide

theorem GetTools_sample_bad_name :
    GetTools sampleRuntime (fun _ => none)
        { Storage := sampleLegacyStore sampleLegacyListing "a/\\b",
          PublicStorage := brokenLegacyStore } "/opt/juju/bin".toList =
      ([], some (EnvError.badName "a/\\b".toList)) := by
  decide

end Environs

/-! ## Evaluation on the sample store -/

theorem ReadList_sample_major1 :
    ReadList (samplePlatform '/') (sampleStore sampleListing) "released".toList 1 (-1) =
      Result.ok
        [ sampleEntry 1 0 "amd64" "tools/released/juju-1.0.0-trusty-amd64.tgz" Tgz,
          sampleEntry 1 2 "amd64" "tools/released/juju-1.2.0-trusty-amd64.tgz" Tgz ] := by
  decide

theorem ReadList_sample_major1_minor2 :
    ReadList (samplePlatform '/') (sampleStore sampleListing) "released".toList 1 2 =
      Result.ok [ sampleEntry 1 2 "amd64" "tools/released/juju-1.2.0-trusty-amd64.tgz" Tgz ] := by
  decide

theorem ReadList_sample_major3 :
    ReadList (samplePlatform '/') (sampleStore sampleListing) "released".toList 3 (-1) =
      Result.err Error.ErrNoMatches := by
  decide

theorem ReadList_sample_zip :
    ReadList (samplePlatform '/') (sampleStore sampleListing) "released".toList 2 1 =
      Result.ok [ sampleEntry 2 1 "amd64" "tools/released/juju-2.1.0-trusty-amd64.zip" Zip ] := by
  decide


/-! ## The archiver -/

namespace Environs

theorem land_eq_zero_of_lor (x y : Nat) (k : Nat) (hy : y.testBit k = false)
    (h : x ||| y = 2 ^ k) : y = 0 := by
  apply Nat.eq_of_testBit_eq
  intro i
  rw [Nat.zero_testBit]
  by_cases hik : i = k
  · rw [hik]; exact hy
  · have h2 := congrArg (fun n => n.testBit i) h
    simp only [Nat.testBit_or, Nat.testBit_two_pow] at h2
    have hki : ¬ k = i := fun e => hik e.symm
    simp only [hki, decide_False, Bool.or_eq_false_iff] at h2
    exact h2.2

theorem isExecutable_eq (modeType : Nat) (i : FileInfo) :
    isExecutable modeType i = decide ((i.Mode &&& 0o100) ||| (i.Mode &&& modeType) = 0o100) := by
  unfold isExecutable
  rw [Nat.and_or_distrib_left]
  by_cases h : (i.Mode &&& 0o100) ||| (i.Mode &&& modeType) = 0o100 <;> simp [h]

/-- C11. Characterisation of `isExecutable`: for every file mode, given that `os.ModeType`
does not hold the owner-execute bit 0100, `isExecutable` is true if and only if the mode
has none of the `os.ModeType` bits set and has the bit 0100 set; two modes that agree on
the `os.ModeType` bits and on the bit 0100 get the same answer, whatever their other
bits. -/
theorem isExecutable_iff (modeType : Nat) (hmt : modeType &&& 0o100 = 0) (i : FileInfo) :
    (isExecutable modeType i = true ↔ i.Mode &&& modeType = 0 ∧ i.Mode &&& 0o100 = 0o100) ∧
      ∀ j : FileInfo, i.Mode &&& modeType = j.Mode &&& modeType →
        i.Mode &&& 0o100 = j.Mode &&& 0o100 →
        isExecutable modeType i = isExecutable modeType j := by
  constructor
  · rw [isExecutable_eq, decide_eq_true_iff]
    constructor
    · intro h
      have hbit : (i.Mode &&& modeType).testBit 6 = false := by
        have h6 := congrArg (fun n => n.testBit 6) hmt
        simp only [Nat.testBit_and, Nat.zero_testBit] at h6
        have h64 : Nat.testBit 0o100 6 = true := by decide
        rw [h64, Bool.and_true] at h6
        rw [Nat.testBit_and, h6, Bool.and_false]
      have hy := land_eq_zero_of_lor (i.Mode &&& 0o100) (i.Mode &&& modeType) 6 hbit
        (by rw [h]; decide)
      refine ⟨hy, ?_⟩
      rw [hy, Nat.or_zero] at h
      exact h
    · rintro ⟨h1, h2⟩
      rw [h1, h2]
      decide
  · intro j h1 h2
    rw [isExecutable_eq, isExecutable_eq, h1, h2]

theorem isExecutable_iff_witness :
    goModeType &&& 0o100 = 0 ∧
      isExecutable goModeType (sampleFile "jujud" 0o755) = true ∧
      isExecutable goModeType (sampleFile "README" 0o644) = false ∧
      isExecutable goModeType (sampleFile "bin" (2 ^ 31 ||| 0o755)) = false ∧
      ((sampleFile "jujud" 0o755).Mode &&& goModeType = 0 ∧
        (sampleFile "jujud" 0o755).Mode &&& 0o100 = 0o100) :=
  ⟨by decide, by decide, by decide, by decide,
    ((isExecutable_iff goModeType (by decide) (sampleFile "jujud" 0o755)).1).mp (by decide)⟩

end Environs


namespace Environs

theorem headersWritten_append (a b : List Event) :
    headersWritten (a ++ b) = headersWritten a ++ headersWritten b := by
  induction a with
  | nil => rfl
  | cons ev a ih =>
    cases ev <;> simp [headersWritten, ih]

/-- Invariant of the loop of `archive`: what it does extends what was done before, closes no
writer, and writes the headers of the first `k` entries, all executable, with `k` the
whole listing when the loop returns `nil`. -/
theorem archiveLoop_spec (E : ArchiveEnv) (dir : GoString) (entries : List FileInfo)
    (log : List Event) :
    ∃ k ext, k ≤ entries.length ∧ (archiveLoop E dir entries log).1 = log ++ ext ∧
      (∀ ev ∈ ext, ev ≠ Event.closeTar ∧ ev ≠ Event.closeGzip) ∧
      headersWritten ext =
        (entries.take k).map (fun ent => { tarHeader ent with Mode := 0o755 }) ∧
      (∀ ent ∈ entries.take k, isExecutable E.ModeType ent = true) ∧
      ((archiveLoop E dir entries log).2 = none → k = entries.length) := by
  induction entries generalizing log with
  | nil => exact ⟨0, [], by simp [archiveLoop, headersWritten]⟩
  | cons ent rest ih =>
    rw [archiveLoop]
    cases hx : isExecutable E.ModeType ent
    · exact ⟨0, [], by simp [headersWritten]⟩
    · simp only [Bool.not_true, Bool.false_eq_true, if_false]
      cases hw : E.WriteHeader log { tarHeader ent with Mode := 0o755 } with
      | some err =>
        exact ⟨1, [Event.writeHeader { tarHeader ent with Mode := 0o755 }],
          by simp [headersWritten, hx]⟩
      | none =>
        simp only []
        cases hr : E.ReadFile (log ++ [Event.writeHeader { tarHeader ent with Mode := 0o755 }])
            (filepathJoin dir ent.Name) with
        | some err =>
          exact ⟨1, [Event.writeHeader { tarHeader ent with Mode := 0o755 },
            Event.readFile (filepathJoin dir ent.Name)], by simp [headersWritten, hx]⟩
        | none =>
          simp only []
          obtain ⟨k, ext, h1, h2, h3, h4, h5, h6⟩ :=
            ih (log ++ [Event.writeHeader { tarHeader ent with Mode := 0o755 }] ++
              [Event.readFile (filepathJoin dir ent.Name)])
          refine ⟨k + 1, [Event.writeHeader { tarHeader ent with Mode := 0o755 },
            Event.readFile (filepathJoin dir ent.Name)] ++ ext, by simp; omega, ?_, ?_, ?_, ?_, ?_⟩
          · rw [h2]; simp
          · intro ev hev
            rcases List.mem_append.mp hev with h | h
            · simp at h
              rcases h with rfl | rfl <;> simp
            · exact h3 ev h
          · simp [headersWritten, h4]
          · intro e he
            rw [List.take_succ_cons] at he
            rcases List.mem_cons.mp he with rfl | he
            · exact hx
            · exact h5 e he
          · intro hn
            simp [h6 hn]

/-- The loop of `archive` over a first part of the listing that it leaves without error
continues with the entries that follow. -/
theorem archiveLoop_append (E : ArchiveEnv) (dir : GoString) (pre rest : List FileInfo)
    (log log2 : List Event) (h : archiveLoop E dir pre log = (log2, none)) :
    archiveLoop E dir (pre ++ rest) log = archiveLoop E dir rest log2 := by
  induction pre generalizing log with
  | nil =>
    rw [archiveLoop] at h
    injection h with h1 _
    rw [List.nil_append, h1]
  | cons ent pre ih =>
    rw [List.cons_append, archiveLoop]
    rw [archiveLoop] at h
    cases hx : isExecutable E.ModeType ent
    · rw [hx] at h
      simp only [Bool.not_false, if_true] at h
      injection h with _ h2
      cases h2
    · rw [hx] at h
      simp only [Bool.not_true, Bool.false_eq_true, if_false] at h ⊢
      cases hw : E.WriteHeader log { tarHeader ent with Mode := 0o755 } with
      | some err =>
        rw [hw] at h
        injection h with _ h2
        cases h2
      | none =>
        rw [hw] at h
        simp only [] at h ⊢
        cases hr : E.ReadFile (log ++ [Event.writeHeader { tarHeader ent with Mode := 0o755 }])
            (filepathJoin dir ent.Name) with
        | some err =>
          rw [hr] at h
          injection h with _ h2
          cases h2
        | none =>
          rw [hr] at h
          simp only [] at h ⊢
          exact ih _ h

theorem archive_eq (E : ArchiveEnv) (dir : GoString) (entries : List FileInfo)
    (hd : E.ReadDir dir = Except.ok entries) :
    archive E dir =
      ((archiveLoop E dir entries []).1 ++ [Event.closeTar, Event.closeGzip],
        closeErrorCheck
          (closeErrorCheck (archiveLoop E dir entries []).2
            (E.CloseTar (archiveLoop E dir entries []).1))
          (E.CloseGzip ((archiveLoop E dir entries []).1 ++ [Event.closeTar]))) := by
  unfold archive
  rw [hd]
  simp

theorem closeErrorCheck_eq_none (err closed : Option ArchError)
    (h : closeErrorCheck err closed = none) : err = none := by
  unfold closeErrorCheck at h
  split at h
  · assumption
  · exact h

theorem closeErrorCheck_some (e : ArchError) (closed : Option ArchError) :
    closeErrorCheck (some e) closed = some e := by
  simp [closeErrorCheck]

end Environs


namespace Environs

theorem headersWritten_closes (log : List Event) :
    headersWritten (log ++ [Event.closeTar, Event.closeGzip]) = headersWritten log := by
  rw [headersWritten_append]
  simp [headersWritten]

theorem mem_take_of_lt (pre post : List FileInfo) (ent : FileInfo) (k : Nat)
    (hk : pre.length < k) : ent ∈ (pre ++ ent :: post).take k := by
  rw [List.take_append_eq_append_take]
  apply List.mem_append_right
  obtain ⟨n, hn⟩ : ∃ n, k - pre.length = n + 1 := ⟨k - pre.length - 1, by omega⟩
  rw [hn, List.take_succ_cons]
  exact List.mem_cons_self _ _

/-- The loop of `archive` over a first part of the listing that it leaves with an error
returns that error whatever entries follow. -/
theorem archiveLoop_append_error (E : ArchiveEnv) (dir : GoString) (pre rest : List FileInfo)
    (log log2 : List Event) (e : ArchError)
    (h : archiveLoop E dir pre log = (log2, some e)) :
    archiveLoop E dir (pre ++ rest) log = (log2, some e) := by
  induction pre generalizing log with
  | nil =>
    rw [archiveLoop] at h
    injection h with _ h2
    cases h2
  | cons ent pre ih =>
    rw [List.cons_append, archiveLoop]
    rw [archiveLoop] at h
    cases hx : isExecutable E.ModeType ent
    · rw [hx] at h
      simp only [Bool.not_false, if_true] at h ⊢
      exact h
    · rw [hx] at h
      simp only [Bool.not_true, Bool.false_eq_true, if_false] at h ⊢
      cases hw : E.WriteHeader log { tarHeader ent with Mode := 0o755 } with
      | some err =>
        rw [hw] at h
        exact h
      | none =>
        rw [hw] at h
        simp only [] at h ⊢
        cases hr : E.ReadFile (log ++ [Event.writeHeader { tarHeader ent with Mode := 0o755 }])
            (filepathJoin dir ent.Name) with
        | some err =>
          rw [hr] at h
          exact h
        | none =>
          rw [hr] at h
          simp only [] at h ⊢
          exact ih _ h

/-- Over executable entries the only error the loop of `archive` returns is the error of a
failed `tarw.WriteHeader` or of a failed `readFile` on one of these entries. -/
theorem archiveLoop_error_source (E : ArchiveEnv) (dir : GoString) (pre : List FileInfo)
    (hpre : ∀ ent ∈ pre, isExecutable E.ModeType ent = true)
    (log log2 : List Event) (e : ArchError)
    (h : archiveLoop E dir pre log = (log2, some e)) :
    ∃ x ∈ pre, ∃ l,
      E.WriteHeader l { tarHeader x with Mode := 0o755 } = some e ∨
        E.ReadFile l (filepathJoin dir x.Name) = some e := by
  induction pre generalizing log with
  | nil =>
    rw [archiveLoop] at h
    injection h with _ h2
    cases h2
  | cons ent pre ih =>
    rw [archiveLoop, hpre ent (List.mem_cons_self _ _)] at h
    simp only [Bool.not_true, Bool.false_eq_true, if_false] at h
    cases hw : E.WriteHeader log { tarHeader ent with Mode := 0o755 } with
    | some err =>
      rw [hw] at h
      injection h with _ h2
      injection h2 with h2
      subst h2
      exact ⟨ent, List.mem_cons_self _ _, _, Or.inl hw⟩
    | none =>
      rw [hw] at h
      simp only [] at h
      cases hr : E.ReadFile (log ++ [Event.writeHeader { tarHeader ent with Mode := 0o755 }])
          (filepathJoin dir ent.Name) with
      | some err =>
        rw [hr] at h
        injection h with _ h2
        injection h2 with h2
        subst h2
        exact ⟨ent, List.mem_cons_self _ _, _, Or.inr hr⟩
      | none =>
        rw [hr] at h
        simp only [] at h
        obtain ⟨x, hx, l, hl⟩ := ih (fun x hx => hpre x (List.mem_cons_of_mem _ hx)) _ h
        exact ⟨x, List.mem_cons_of_mem _ hx, l, hl⟩

/-! ## Claims on the archiver -/

/-- C12 (counterexample). The directory holds the executable `jujud` and the non-executable
`readme`, listed in that order by `ioutil.ReadDir`, which sorts by name, and the tar
writer fails on the header of `jujud`: `archive` returns the writer's error, which does
not name `readme`. -/
theorem archive_precondition_counterexample :
    sortedByName [sampleFile "jujud" 0o755, sampleFile "readme" 0o644] = true ∧
      isExecutable goModeType (sampleFile "jujud" 0o755) = true ∧
      isExecutable goModeType (sampleFile "readme" 0o644) = false ∧
      (archive (fullDiskArchiveEnv [sampleFile "jujud" 0o755, sampleFile "readme" 0o644])
          "/tmp/juju-tools".toList).2 =
        some (ArchError.io "no space left on device".toList) ∧
      (archive (fullDiskArchiveEnv [sampleFile "jujud" 0o755, sampleFile "readme" 0o644])
          "/tmp/juju-tools".toList).2 ≠
        some (ArchError.nonExecutable "/tmp/juju-tools/readme".toList) := by
  decide

/-- C12 (amended). Archiver precondition: for every directory listing, `archive` returns
`nil` only if every entry is a regular file executable by its owner; if some entry is
not, `archive` returns an error and writes no tar header for the first such entry in
directory order or for any entry after it (the headers written are those of entries
before it); when the entries before it are written without error that error names
`filepath.Join(dir, name)` of that entry and the header of every entry before it is
written; otherwise the error returned is that of the failed write, the error the loop
gets from `tarw.WriteHeader` or from `readFile` on an entry before it. -/
theorem archive_precondition (E : ArchiveEnv) (dir : GoString) (entries : List FileInfo)
    (hd : E.ReadDir dir = Except.ok entries) :
    ((archive E dir).2 = none → ∀ ent ∈ entries, isExecutable E.ModeType ent = true) ∧
      ∀ pre ent post, entries = pre ++ ent :: post →
        (∀ e ∈ pre, isExecutable E.ModeType e = true) → isExecutable E.ModeType ent = false →
        (archive E dir).2 ≠ none ∧
          (∃ k, k ≤ pre.length ∧ headersWritten (archive E dir).1 =
            (pre.take k).map (fun e => { tarHeader e with Mode := 0o755 })) ∧
          (∀ log, archiveLoop E dir pre [] = (log, none) →
            (archive E dir).2 = some (ArchError.nonExecutable (filepathJoin dir ent.Name)) ∧
              headersWritten (archive E dir).1 =
                pre.map (fun e => { tarHeader e with Mode := 0o755 })) ∧
          (∀ log e, archiveLoop E dir pre [] = (log, some e) →
            (archive E dir).2 = some e ∧
              ∃ x ∈ pre, ∃ l,
                E.WriteHeader l { tarHeader x with Mode := 0o755 } = some e ∨
                  E.ReadFile l (filepathJoin dir x.Name) = some e) := by
  rw [archive_eq E dir entries hd]
  obtain ⟨k, ext, hk, hlog, _, hh, hx, hn⟩ := archiveLoop_spec E dir entries []
  simp only [List.nil_append] at hlog
  constructor
  · intro h
    have h1 := closeErrorCheck_eq_none _ _ (closeErrorCheck_eq_none _ _ h)
    have h2 := hn h1
    intro ent hent
    apply hx
    rw [h2, List.take_length]
    exact hent
  · intro pre ent post hsplit hpre hent
    have hkp : k ≤ pre.length := by
      by_contra hc
      have hm := mem_take_of_lt pre post ent k (by omega)
      rw [← hsplit] at hm
      rw [hx ent hm] at hent
      cases hent
    have herr : (archiveLoop E dir entries []).2 ≠ none := by
      intro h
      have := hn h
      rw [hsplit] at this
      simp at this
      omega
    refine ⟨?_, ⟨k, hkp, ?_⟩, ?_, ?_⟩
    · obtain ⟨e, he⟩ := Option.ne_none_iff_exists'.mp herr
      simp only [he, closeErrorCheck_some]
      simp
    · simp only [headersWritten_closes]
      rw [hlog, hh, hsplit, List.take_append_of_le_length hkp]
    · intro log hpl
      have hloop := archiveLoop_append E dir pre (ent :: post) [] log hpl
      rw [← hsplit] at hloop
      rw [archiveLoop, hent] at hloop
      simp only [Bool.not_false, if_true] at hloop
      obtain ⟨k2, ext2, _, hlog2, _, hh2, _, hn2⟩ := archiveLoop_spec E dir pre []
      rw [hpl] at hlog2 hn2
      simp only [List.nil_append] at hlog2
      have hk2 := hn2 rfl
      rw [hloop]
      refine ⟨by rw [closeErrorCheck_some, closeErrorCheck_some], ?_⟩
      rw [headersWritten_closes]
      simp only []
      rw [hlog2, hh2, hk2, List.take_length]
    · intro log e hpl
      have hloop := archiveLoop_append_error E dir pre (ent :: post) [] log e hpl
      rw [← hsplit] at hloop
      rw [hloop]
      exact ⟨by rw [closeErrorCheck_some, closeErrorCheck_some],
        archiveLoop_error_source E dir pre hpre [] log e hpl⟩

theorem archive_precondition_witness :
    ((archive (sampleArchiveEnv [sampleFile "jujud" 0o755, sampleFile "readme" 0o644])
          "/tmp/juju-tools".toList).2 =
        some (ArchError.nonExecutable "/tmp/juju-tools/readme".toList)) ∧
      headersWritten
          (archive (sampleArchiveEnv [sampleFile "jujud" 0o755, sampleFile "readme" 0o644])
            "/tmp/juju-tools".toList).1 =
        [sampleHeader "jujud"] :=
  ((archive_precondition (sampleArchiveEnv [sampleFile "jujud" 0o755, sampleFile "readme" 0o644])
      "/tmp/juju-tools".toList [sampleFile "jujud" 0o755, sampleFile "readme" 0o644] rfl).2
    [sampleFile "jujud" 0o755] (sampleFile "readme" 0o644) [] rfl (by decide) (by decide)).2.2.1
    [Event.writeHeader (sampleHeader "jujud"), Event.readFile "/tmp/juju-tools/jujud".toList]
    (by decide)

end Environs


namespace Environs

/-- C13. Archive metadata normalisation: the tar headers `archive` writes are, in directory
order, those of the first `k` entries of the listing, all of them executable files (all
the entries when `archive` returns `nil`); whatever the permission bits of the source
file, its header has Mode 0755, Typeflag regular file, the Name and Size of the source,
Uname and Gname `ubuntu`, and ModTime, AccessTime and ChangeTime all equal to the
modification time of the source. -/
theorem archive_headers_normalised (E : ArchiveEnv) (dir : GoString) (entries : List FileInfo)
    (hd : E.ReadDir dir = Except.ok entries) :
    ∃ k, k ≤ entries.length ∧
      headersWritten (archive E dir).1 =
        (entries.take k).map (fun ent =>
          { Typeflag := TypeReg, Name := ent.Name, Size := ent.Size, Mode := 0o755,
            ModTime := ent.ModTime, AccessTime := ent.ModTime, ChangeTime := ent.ModTime,
            Uname := "ubuntu".toList, Gname := "ubuntu".toList }) ∧
      (∀ ent ∈ entries.take k, isExecutable E.ModeType ent = true) ∧
      ((archive E dir).2 = none → k = entries.length) := by
  rw [archive_eq E dir entries hd]
  obtain ⟨k, ext, hk, hlog, _, hh, hx, hn⟩ := archiveLoop_spec E dir entries []
  simp only [List.nil_append] at hlog
  refine ⟨k, hk, ?_, hx, ?_⟩
  · simp only [headersWritten_closes]
    rw [hlog, hh]
    rfl
  · intro h
    exact hn (closeErrorCheck_eq_none _ _ (closeErrorCheck_eq_none _ _ h))

theorem archive_headers_normalised_witness :
    (archive (sampleArchiveEnv [sampleFile "juju" 0o755, sampleFile "jujud" 0o700])
        "/tmp/juju-tools".toList).2 = none ∧
      ∃ k, k ≤ 2 ∧
        headersWritten
            (archive (sampleArchiveEnv [sampleFile "juju" 0o755, sampleFile "jujud" 0o700])
              "/tmp/juju-tools".toList).1 =
          ([sampleFile "juju" 0o755, sampleFile "jujud" 0o700].take k).map (fun ent =>
            { Typeflag := TypeReg, Name := ent.Name, Size := ent.Size, Mode := 0o755,
              ModTime := ent.ModTime, AccessTime := ent.ModTime, ChangeTime := ent.ModTime,
              Uname := "ubuntu".toList, Gname := "ubuntu".toList }) ∧
        (∀ ent ∈ [sampleFile "juju" 0o755, sampleFile "jujud" 0o700].take k,
          isExecutable goModeType ent = true) ∧
        ((archive (sampleArchiveEnv [sampleFile "juju" 0o755, sampleFile "jujud" 0o700])
            "/tmp/juju-tools".toList).2 = none → k = 2) :=
  ⟨by decide,
    archive_headers_normalised
      (sampleArchiveEnv [sampleFile "juju" 0o755, sampleFile "jujud" 0o700])
      "/tmp/juju-tools".toList [sampleFile "juju" 0o755, sampleFile "jujud" 0o700] rfl⟩

/-- C14. Close ordering and error precedence in `archive`: once the directory has been read,
whatever the loop did and returned, `archive` then closes the tar writer and after it the
gzip writer, each exactly once and as its last two actions; the error it returns is the
loop's error if there is one, otherwise the error of the tar writer's `Close` if there is
one, otherwise the error of the gzip writer's `Close`. -/
theorem archive_close_order (E : ArchiveEnv) (dir : GoString) (entries : List FileInfo)
    (hd : E.ReadDir dir = Except.ok entries) :
    (archive E dir).1 = (archiveLoop E dir entries []).1 ++ [Event.closeTar, Event.closeGzip] ∧
      (∀ ev ∈ (archiveLoop E dir entries []).1, ev ≠ Event.closeTar ∧ ev ≠ Event.closeGzip) ∧
      (archive E dir).2 =
        match (archiveLoop E dir entries []).2 with
        | some e => some e
        | none =>
          match E.CloseTar (archiveLoop E dir entries []).1 with
          | some e => some e
          | none => E.CloseGzip ((archiveLoop E dir entries []).1 ++ [Event.closeTar]) := by
  rw [archive_eq E dir entries hd]
  obtain ⟨k, ext, _, hlog, hc, _, _, _⟩ := archiveLoop_spec E dir entries []
  simp only [List.nil_append] at hlog
  refine ⟨rfl, ?_, ?_⟩
  · rw [hlog]
    exact hc
  · simp only []
    cases (archiveLoop E dir entries []).2 with
    | some e => simp [closeErrorCheck]
    | none =>
      cases E.CloseTar (archiveLoop E dir entries []).1 with
      | some e => simp [closeErrorCheck]
      | none => simp [closeErrorCheck]

theorem archive_close_order_witness :
    archive (fullDiskArchiveEnv [sampleFile "jujud" 0o755]) "/tmp/juju-tools".toList =
        ([Event.writeHeader (sampleHeader "jujud"), Event.closeTar, Event.closeGzip],
          some (ArchError.io "no space left on device".toList)) ∧
      (archive (fullDiskArchiveEnv []) "/tmp/juju-tools".toList).2 =
        some (ArchError.io "tar: close failed".toList) ∧
      (archive (fullDiskArchiveEnv [sampleFile "jujud" 0o755]) "/tmp/juju-tools".toList).1 =
        (archiveLoop (fullDiskArchiveEnv [sampleFile "jujud" 0o755]) "/tmp/juju-tools".toList
          [sampleFile "jujud" 0o755] []).1 ++ [Event.closeTar, Event.closeGzip] :=
  ⟨by decide, by decide,
    (archive_close_order (fullDiskArchiveEnv [sampleFile "jujud" 0o755])
      "/tmp/juju-tools".toList [sampleFile "jujud" 0o755] rfl).1⟩

end Environs


/-! ## Claims on `UseZipToolsWindows` and `StorageName` -/

/-- C15. Threshold of `UseZipToolsWindows`: for every version it is true if and only if the
OS is Windows and (Major, Minor) is at least (1, 26) in lexicographic order; versions
with the same OS, Major and Minor get the same answer whatever their Patch and Arch; and
it is false for every OS other than Windows. -/
theorem UseZipToolsWindows_iff (windows : Int) (v : Binary) :
    (UseZipToolsWindows windows v = true ↔
        v.OS = windows ∧ (v.Major > 1 ∨ (v.Major = 1 ∧ v.Minor ≥ 26))) ∧
      (∀ w : Binary, w.OS = v.OS → w.Major = v.Major → w.Minor = v.Minor →
        UseZipToolsWindows windows w = UseZipToolsWindows windows v) ∧
      (v.OS ≠ windows → UseZipToolsWindows windows v = false) := by
  refine ⟨?_, ?_, ?_⟩
  · unfold UseZipToolsWindows
    split <;> simp_all
  · intro w h1 h2 h3
    unfold UseZipToolsWindows
    rw [h1, h2, h3]
  · intro h
    unfold UseZipToolsWindows
    simp [h]

theorem UseZipToolsWindows_iff_witness :
    UseZipToolsWindows sampleWindows (sampleWindowsBinary 1 26 0 "amd64") = true ∧
      UseZipToolsWindows sampleWindows (sampleWindowsBinary 1 25 9 "amd64") = false ∧
      UseZipToolsWindows sampleWindows (sampleWindowsBinary 2 0 0 "386") = true ∧
      UseZipToolsWindows sampleWindows (sampleBinary 2 0 "amd64") = false ∧
      UseZipToolsWindows sampleWindows (sampleWindowsBinary 1 26 7 "386") =
        UseZipToolsWindows sampleWindows (sampleWindowsBinary 1 26 0 "amd64") :=
  ⟨by decide, by decide, by decide, by decide,
    (UseZipToolsWindows_iff sampleWindows (sampleWindowsBinary 1 26 0 "amd64")).2.1
      (sampleWindowsBinary 1 26 7 "386") rfl rfl rfl⟩

/-- C16. Bundle name format: for every version, stream and file type, `StorageName` is the
concatenation of `tools/`, the stream, `/juju-`, the string of the version and the file
type; it is a total function; and it begins with `storagePrefix(stream)`, which is the
prefix `ReadList` asks the store to list for that stream (a failure of that listing is
what `ReadList` returns) and the prefix it requires of every name (a name without it is
not a valid bundle name). -/
theorem StorageName_format (P : Platform) (vers : Binary) (stream fileType : GoString) :
    StorageName P vers stream fileType =
        "tools/".toList ++ stream ++ "/juju-".toList ++ P.BinaryString vers ++ fileType ∧
      hasPrefix (StorageName P vers stream fileType) (storagePrefix stream) = true ∧
      (∀ (stor : StorageReader) (majorVersion minorVersion : Int) (e : Error),
        stor.List (storagePrefix stream) = Except.error e →
        ReadList P stor stream majorVersion minorVersion = Result.err e) ∧
      (∀ name, hasPrefix (toSlash P.Separator name) (storagePrefix stream) = false →
        validName P (storagePrefix stream) name = false) := by
  refine ⟨rfl, ?_, ?_, ?_⟩
  · unfold StorageName
    rw [List.append_assoc]
    exact hasPrefix_append _ _
  · intro stor majorVersion minorVersion e h
    unfold ReadList
    rw [h]
  · intro name h
    simp [validName, decompose, h]

theorem StorageName_format_witness :
    StorageName (samplePlatform '/') (sampleBinary 2 1 "amd64") "released".toList
        windowsToolSuffix =
      "tools/released/juju-2.1.0-trusty-amd64.zip".toList ∧
    hasPrefix "tools/released/juju-2.1.0-trusty-amd64.zip".toList
        (storagePrefix "released".toList) = true :=
  ⟨by decide,
    (StorageName_format (samplePlatform '/') (sampleBinary 2 1 "amd64") "released".toList
      windowsToolSuffix).2.1⟩


/-! ## Claims on the extraction guard -/

namespace Environs

/-- The loop of `GetTools` over a first part of the entries that it leaves without error
continues with the entries that follow. -/
theorem extractLoop_append (fs : GoString → Option EnvError) (dir : GoString)
    (tail : Option EnvError) (pre rest : List TarHeader) (calls calls2 : List WriteCall)
    (h : extractLoop fs dir none pre calls = (calls2, none)) :
    extractLoop fs dir tail (pre ++ rest) calls = extractLoop fs dir tail rest calls2 := by
  induction pre generalizing calls with
  | nil =>
    simp only [extractLoop] at h
    injection h with h1 _
    rw [List.nil_append, h1]
  | cons hdr pre ih =>
    rw [List.cons_append, extractLoop]
    rw [extractLoop] at h
    by_cases hc : stringsContains hdr.Name "/\\".toList = true
    · rw [if_pos hc] at h
      injection h with _ h2
      cases h2
    · rw [if_neg hc] at h
      rw [if_neg hc]
      simp only [] at h ⊢
      cases hf : fs (filepathJoin dir hdr.Name) with
      | some err =>
        rw [hf] at h
        injection h with _ h2
        cases h2
      | none =>
        rw [hf] at h
        simp only [] at h ⊢
        exact ih _ h

/-- The calls of `writeFile` made by the loop of `GetTools` extend those made before. -/
theorem extractLoop_calls (fs : GoString → Option EnvError) (dir : GoString)
    (tail : Option EnvError) (entries : List TarHeader) (calls : List WriteCall) :
    ∃ more, (extractLoop fs dir tail entries calls).1 = calls ++ more := by
  induction entries generalizing calls with
  | nil => exact ⟨[], by simp [extractLoop]⟩
  | cons hdr rest ih =>
    rw [extractLoop]
    by_cases hc : stringsContains hdr.Name "/\\".toList = true
    · rw [if_pos hc]
      exact ⟨[], by simp⟩
    · rw [if_neg hc]
      simp only []
      cases hf : fs (filepathJoin dir hdr.Name) with
      | some err => exact ⟨[_], rfl⟩
      | none =>
        simp only []
        obtain ⟨more, hm⟩ := ih (calls ++ [⟨filepathJoin dir hdr.Name, hdr.Mode % 512⟩])
        exact ⟨⟨filepathJoin dir hdr.Name, hdr.Mode % 512⟩ :: more, by rw [hm]; simp⟩

/-- C17. The extraction guard rejects an archive entry exactly when its name contains a slash
followed by a backslash.  When the loop of `GetTools` is at such an entry it returns the
error built from that name and calls `writeFile` neither for it nor for any later entry
(the calls made are those made before); `GetTools` does so whenever the entries before
it are extracted without error.  When the name lacks that sequence the guard does not
fail: `writeFile` is called for the entry, on `filepath.Join(dir, name)`. -/
theorem extraction_guard (fs : GoString → Option EnvError) (dir : GoString)
    (tail : Option EnvError) (hdr : TarHeader) (rest : List TarHeader)
    (calls : List WriteCall) :
    (stringsContains hdr.Name "/\\".toList = true →
        extractLoop fs dir tail (hdr :: rest) calls =
          (calls, some (EnvError.badName hdr.Name))) ∧
      (stringsContains hdr.Name "/\\".toList = false →
        ∃ more, (extractLoop fs dir tail (hdr :: rest) calls).1 =
          calls ++ { name := filepathJoin dir hdr.Name, mode := hdr.Mode % 512 } :: more) ∧
      (stringsContains hdr.Name "/\\".toList = true →
        ∀ (R : Runtime) (env : Environ) (storage : StorageReader) (path : GoString)
          (pre : List TarHeader),
          findTools R env = Except.ok (storage, path) →
          storage.Get path = Except.ok (Stream.tar { entries := pre ++ hdr :: rest, tail := tail }) →
          extractLoop fs dir none pre [] = (calls, none) →
          GetTools R fs env dir = (calls, some (EnvError.badName hdr.Name))) := by
  refine ⟨?_, ?_, ?_⟩
  · intro hc
    rw [extractLoop, if_pos hc]
  · intro hc
    have hc2 : ¬ stringsContains hdr.Name "/\\".toList = true := by rw [hc]; decide
    rw [extractLoop, if_neg hc2]
    simp only []
    cases hf : fs (filepathJoin dir hdr.Name) with
    | some err => exact ⟨[], rfl⟩
    | none =>
      simp only []
      obtain ⟨more, hm⟩ := extractLoop_calls fs dir tail rest
        (calls ++ [⟨filepathJoin dir hdr.Name, hdr.Mode % 512⟩])
      exact ⟨more, by rw [hm]; simp⟩
  · intro hc R env storage path pre hfind hget hpre
    unfold GetTools
    rw [hfind]
    simp only [hget]
    rw [extractLoop_append fs dir tail pre (hdr :: rest) [] calls hpre, extractLoop, if_pos hc]

theorem extraction_guard_witness :
    GetTools sampleRuntime (fun _ => none)
        { Storage := sampleArchiveStore ["jujud", "a/\\b", "juju"],
          PublicStorage := brokenLegacyStore } "/opt/juju/bin".toList =
      ([{ name := "/opt/juju/bin/jujud".toList, mode := 493 }],
        some (EnvError.badName "a/\\b".toList)) :=
  (extraction_guard (fun _ => none) "/opt/juju/bin".toList none
    { Name := "a/\\b".toList, Mode := 493 } [{ Name := "juju".toList, Mode := 493 }]
    [{ name := "/opt/juju/bin/jujud".toList, mode := 493 }]).2.2 (by decide) sampleRuntime
    { Storage := sampleArchiveStore ["jujud", "a/\\b", "juju"],
      PublicStorage := brokenLegacyStore }
    (sampleArchiveStore ["jujud", "a/\\b", "juju"])
    "tools/juju-1.10.0-precise-amd64.tgz".toList
    [{ Name := "jujud".toList, Mode := 493 }] rfl rfl (by decide)

end Environs


/-! ## Claims on suffix stripping and file types -/

theorem prefix_versionPart_suffix (n p s : GoString) (hp : hasPrefix n p = true)
    (hs : hasSuffix n s = true) (hd : ∃ q, p = q ++ ['-']) (hns : '-' ∉ s)
    (hl : s.length = 4) : p ++ versionPart p n ++ s = n := by
  have hp2 : p <+: n := by simpa [hasPrefix] using hp
  have hs2 : s <:+ n := by simpa [hasSuffix] using hs
  have hlen := length_of_prefix_suffix n p s hp2 hs2 hd hns
  obtain ⟨q, hq⟩ := hs2
  have hqlen : n.length - 4 = q.length := by
    rw [← hq, List.length_append, hl]
    omega
  have htake : n.take (n.length - 4) = q := by
    rw [hqlen, ← hq, List.take_left']
    rfl
  have hpq : p <+: q := by
    have hqn : q <+: n := ⟨s, hq⟩
    exact List.prefix_of_prefix_length_le hp2 hqn (by omega)
  obtain ⟨w, hw⟩ := hpq
  unfold versionPart
  rw [htake, ← hw, List.drop_left', hw, hq]
  rfl

theorem not_both_suffixes (n : GoString) (hu : hasSuffix n unixToolSuffix = true)
    (hw : hasSuffix n windowsToolSuffix = true) : False := by
  have h1 : unixToolSuffix <:+ n := by simpa [hasSuffix] using hu
  have h2 : windowsToolSuffix <:+ n := by simpa [hasSuffix] using hw
  have h3 : unixToolSuffix <:+ windowsToolSuffix :=
    List.suffix_of_suffix_length_le h1 h2 (by decide)
  exact absurd (h3.eq_of_length (by decide)) (by decide)

/-- C18. Index-based suffix stripping is correct and safe: both recognised suffixes have
length `toolSuffixLen`, which is 4; the prefix of a stream ends in a dash and neither
suffix holds a dash; hence for every stream and every name that passes the prefix check
and the suffix check of `ReadList`, the name is at least as long as the prefix plus 4,
the slice `name[len(prefix) : len(name)-4]` is in range, and the prefix, the slice and
the matched suffix put together give the name back. -/
theorem suffix_stripping_safe (stream name : GoString)
    (hp : hasPrefix name (storagePrefix stream) = true)
    (hs : hasSuffix name unixToolSuffix = true ∨ hasSuffix name windowsToolSuffix = true) :
    (unixToolSuffix.length : Int) = toolSuffixLen ∧
      (windowsToolSuffix.length : Int) = toolSuffixLen ∧ toolSuffixLen = 4 ∧
      (storagePrefix stream).getLast? = some '-' ∧
      '-' ∉ unixToolSuffix ∧ '-' ∉ windowsToolSuffix ∧
      (storagePrefix stream).length + 4 ≤ name.length ∧
      ∃ vers, goSlice name (storagePrefix stream).length
          ((name.length : Int) - toolSuffixLen) = some vers ∧
        (hasSuffix name unixToolSuffix = true →
          storagePrefix stream ++ vers ++ unixToolSuffix = name) ∧
        (hasSuffix name windowsToolSuffix = true →
          storagePrefix stream ++ vers ++ windowsToolSuffix = name) := by
  have hd := storagePrefix_dash stream
  refine ⟨by decide, by decide, rfl, ?_, dash_not_mem_unix, dash_not_mem_windows, ?_, ?_⟩
  · obtain ⟨q, hq⟩ := hd
    rw [hq]
    simp
  · rcases hs with hs | hs
    · exact length_of_prefix_suffix name _ unixToolSuffix (by simpa [hasPrefix] using hp)
        (by simpa [hasSuffix] using hs) hd dash_not_mem_unix
    · exact length_of_prefix_suffix name _ windowsToolSuffix (by simpa [hasPrefix] using hp)
        (by simpa [hasSuffix] using hs) hd dash_not_mem_windows
  · refine ⟨versionPart (storagePrefix stream) name, ?_, ?_, ?_⟩
    · rcases hs with hs | hs
      · exact goSlice_versionPart name _ unixToolSuffix hp hs hd dash_not_mem_unix rfl
      · exact goSlice_versionPart name _ windowsToolSuffix hp hs hd dash_not_mem_windows rfl
    · intro hu
      exact prefix_versionPart_suffix name _ unixToolSuffix hp hu hd dash_not_mem_unix rfl
    · intro hw
      exact prefix_versionPart_suffix name _ windowsToolSuffix hp hw hd dash_not_mem_windows rfl

theorem suffix_stripping_safe_witness :
    goSlice "tools/released/juju-2.1.0-trusty-amd64.zip".toList
        (storagePrefix "released".toList).length
        ((("tools/released/juju-2.1.0-trusty-amd64.zip".toList).length : Int) - toolSuffixLen) =
      some "2.1.0-trusty-amd64".toList ∧
    (storagePrefix "released".toList).length + 4 ≤
      ("tools/released/juju-2.1.0-trusty-amd64.zip".toList).length :=
  ⟨by decide,
    (suffix_stripping_safe "released".toList "tools/released/juju-2.1.0-trusty-amd64.zip".toList
      (by decide) (Or.inr (by decide))).2.2.2.2.2.2.1⟩

/-- C19. Every entry `ReadList` returns comes from a listed name; its FileType is `tgz` or
`zip`, never empty, `tgz` exactly when that name ends in `.tgz` and `zip` exactly when it
ends in `.zip`; and its URL is the one the store resolves for that name. -/
theorem ReadList_file_type (P : Platform) (stor : StorageReader) (toolsDir : GoString)
    (majorVersion minorVersion : Int) (names : List GoString) (l : List Tools)
    (hl : stor.List (storagePrefix toolsDir) = Except.ok names)
    (hres : ReadList P stor toolsDir majorVersion minorVersion = Result.ok l) :
    ∀ t ∈ l, ∃ n ∈ names,
      stor.URL (toSlash P.Separator n) = Except.ok t.URL ∧
      (t.FileType = Tgz ∨ t.FileType = Zip) ∧ t.FileType ≠ [] ∧
      (t.FileType = Tgz ↔ hasSuffix (toSlash P.Separator n) unixToolSuffix = true) ∧
      (t.FileType = Zip ↔ hasSuffix (toSlash P.Separator n) windowsToolSuffix = true) := by
  obtain ⟨h1, _, h3⟩ := ReadList_ok P stor toolsDir majorVersion minorVersion names l hl hres
  intro t ht
  rw [h1, List.mem_flatMap] at ht
  obtain ⟨n, hn, htn⟩ := ht
  have hm : matchingName P (storagePrefix toolsDir) majorVersion minorVersion n = true := by
    by_contra hc
    have := (entriesFor_eq_nil_iff P stor (storagePrefix toolsDir) majorVersion minorVersion
      n).mpr (by simpa using hc)
    rw [this] at htn
    cases htn
  have hurl := h3 n hn hm
  refine ⟨n, hn, ?_⟩
  unfold entriesFor at htn
  cases hdc : decompose P (storagePrefix toolsDir) (toSlash P.Separator n) with
  | none => simp [hdc] at htn
  | some p =>
    obtain ⟨v, ft⟩ := p
    simp only [hdc] at htn
    split at htn
    · have hfu : t.FileType = ft ∧ t.URL = urlOf stor (toSlash P.Separator n) := by
        unfold withAlias at htn
        split at htn
        · simp only [List.mem_cons, List.mem_singleton, List.not_mem_nil, or_false] at htn
          rcases htn with rfl | rfl
          · exact ⟨rfl, rfl⟩
          · exact ⟨rfl, rfl⟩
        · simp only [List.mem_singleton] at htn
          subst htn
          exact ⟨rfl, rfl⟩
      obtain ⟨hft, hu⟩ := hfu
      rw [hft, hu]
      refine ⟨hurl, ?_⟩
      unfold decompose at hdc
      split at hdc
      · split at hdc
        · rename_i hux
          cases hpb : P.ParseBinary (versionPart (storagePrefix toolsDir)
              (toSlash P.Separator n)) with
          | none => simp [hpb] at hdc
          | some w =>
            simp only [hpb, Option.map_some', Option.some.injEq, Prod.mk.injEq] at hdc
            obtain ⟨_, rfl⟩ := hdc
            refine ⟨Or.inl rfl, by decide, by simp [hux], ?_⟩
            constructor
            · intro h
              exact absurd h (by decide)
            · intro hw
              exact absurd (not_both_suffixes _ hux hw) id
        · split at hdc
          · rename_i hux hwx
            cases hpb : P.ParseBinary (versionPart (storagePrefix toolsDir)
                (toSlash P.Separator n)) with
            | none => simp [hpb] at hdc
            | some w =>
              simp only [hpb, Option.map_some', Option.some.injEq, Prod.mk.injEq] at hdc
              obtain ⟨_, rfl⟩ := hdc
              refine ⟨Or.inr rfl, by decide, ?_, by simp [hwx]⟩
              constructor
              · intro h
                exact absurd h (by decide)
              · intro hu2
                exact absurd hu2 hux
          · cases hdc
      · cases hdc
    · cases htn

theorem ReadList_file_type_witness :
    ∃ n ∈ sampleListing,
      (sampleStore sampleListing).URL (toSlash '/' n) =
        Except.ok "https://store/tools/released/juju-2.1.0-trusty-amd64.zip".toList ∧
      (Zip = Tgz ∨ Zip = Zip) ∧ Zip ≠ [] ∧
      (Zip = Tgz ↔ hasSuffix (toSlash '/' n) unixToolSuffix = true) ∧
      (Zip = Zip ↔ hasSuffix (toSlash '/' n) windowsToolSuffix = true) :=
  ReadList_file_type (samplePlatform '/') (sampleStore sampleListing) "released".toList 2 1
    sampleListing _ rfl
    (by decide : ReadList (samplePlatform '/') (sampleStore sampleListing) "released".toList 2 1 =
      Result.ok [ sampleEntry 2 1 "amd64" "tools/released/juju-2.1.0-trusty-amd64.zip" Zip ])
    (sampleEntry 2 1 "amd64" "tools/released/juju-2.1.0-trusty-amd64.zip" Zip)
    (List.mem_singleton_self _)

/-! ## The legacy naming round trip -/

namespace Environs

theorem digitChar_isDigit (k : Nat) (hk : k < 10) : isDigit (Nat.digitChar k) = true := by
  interval_cases k <;> decide

theorem toDigitsCore_digits (fuel n : Nat) (ds : List Char)
    (hds : ∀ c ∈ ds, isDigit c = true) :
    ∀ c ∈ Nat.toDigitsCore 10 fuel n ds, isDigit c = true := by
  induction fuel generalizing n ds with
  | zero => simpa [Nat.toDigitsCore] using hds
  | succ fuel ih =>
    rw [Nat.toDigitsCore]
    split
    · intro c hc
      rcases List.mem_cons.mp hc with rfl | hc
      · exact digitChar_isDigit _ (Nat.mod_lt _ (by decide))
      · exact hds c hc
    · apply ih
      intro c hc
      rcases List.mem_cons.mp hc with rfl | hc
      · exact digitChar_isDigit _ (Nat.mod_lt _ (by decide))
      · exact hds c hc

theorem toDigitsCore_ne_nil (fuel n : Nat) (ds : List Char) (h : 0 < fuel ∨ ds ≠ []) :
    Nat.toDigitsCore 10 fuel n ds ≠ [] := by
  induction fuel generalizing n ds with
  | zero =>
    rcases h with h | h
    · omega
    · simpa [Nat.toDigitsCore] using h
  | succ fuel ih =>
    rw [Nat.toDigitsCore]
    split
    · simp
    · exact ih _ _ (Or.inr (by simp))

theorem formatInt_ofNat (m : Nat) : formatInt (m : Int) = Nat.toDigits 10 m := rfl

/-- The `%d` rendering of a non-negative integer is a non-empty run of digits. -/
theorem formatInt_digits (n : Int) (hn : 0 ≤ n) :
    (∀ c ∈ formatInt n, isDigit c = true) ∧ formatInt n ≠ [] := by
  obtain ⟨m, rfl⟩ := Int.eq_ofNat_of_zero_le hn
  rw [formatInt_ofNat]
  exact ⟨toDigitsCore_digits _ _ _ (by simp), toDigitsCore_ne_nil _ _ _ (Or.inl (by omega))⟩

theorem isDigit_ne_dash (c : Char) (h : isDigit c = true) : c ≠ '-' := by
  rintro rfl
  exact absurd h (by decide)

theorem matchDotted_append (a b c : GoString) (ha : ∀ x ∈ a, isDigit x = true)
    (hb : ∀ x ∈ b, isDigit x = true) (hc : ∀ x ∈ c, isDigit x = true)
    (ha0 : a ≠ []) (hb0 : b ≠ []) (hc0 : c ≠ []) :
    matchDotted (a ++ '.' :: (b ++ '.' :: c)) = true := by
  have hdot : isDigit '.' = false := by decide
  unfold matchDotted
  rw [List.dropWhile_append_of_pos ha, List.dropWhile_cons_of_neg (by simp [hdot])]
  simp only []
  rw [List.dropWhile_append_of_pos hb, List.dropWhile_cons_of_neg (by simp [hdot])]
  simp only []
  rw [List.takeWhile_append_of_pos ha, List.takeWhile_cons_of_neg (by simp [hdot]),
    List.takeWhile_append_of_pos hb, List.takeWhile_cons_of_neg (by simp [hdot])]
  simp only [List.append_nil, Bool.and_eq_true, Bool.not_eq_true', List.isEmpty_eq_false,
    List.all_eq_true]
  exact ⟨⟨⟨ha0, hb0⟩, hc0⟩, hc⟩

theorem dottedString_spec (v : Version) (h1 : 0 ≤ v.Major) (h2 : 0 ≤ v.Minor)
    (h3 : 0 ≤ v.Patch) :
    matchDotted (dottedString v) = true ∧ '-' ∉ dottedString v := by
  obtain ⟨a1, a2⟩ := formatInt_digits v.Major h1
  obtain ⟨b1, b2⟩ := formatInt_digits v.Minor h2
  obtain ⟨c1, c2⟩ := formatInt_digits v.Patch h3
  have hd : dottedString v =
      formatInt v.Major ++ '.' :: (formatInt v.Minor ++ '.' :: formatInt v.Patch) := by
    unfold dottedString
    simp
  rw [hd]
  refine ⟨matchDotted_append _ _ _ a1 b1 c1 a2 b2 c2, ?_⟩
  intro hmem
  simp only [List.mem_append, List.mem_cons] at hmem
  rcases hmem with h | h | h | h | h
  · exact isDigit_ne_dash _ (a1 _ h) rfl
  · exact absurd h (by decide)
  · exact isDigit_ne_dash _ (b1 _ h) rfl
  · exact absurd h (by decide)
  · exact isDigit_ne_dash _ (c1 _ h) rfl

end Environs


namespace Environs

theorem dropWhile_upto (p : Char → Bool) (l1 : GoString) (a : Char) (l2 : GoString)
    (h1 : ∀ x ∈ l1, p x = true) (h2 : p a = false) :
    List.dropWhile p (l1 ++ a :: l2) = a :: l2 := by
  rw [List.dropWhile_append_of_pos h1, List.dropWhile_cons_of_neg (by simp [h2])]

theorem takeWhile_upto (p : Char → Bool) (l1 : GoString) (a : Char) (l2 : GoString)
    (h1 : ∀ x ∈ l1, p x = true) (h2 : p a = false) :
    List.takeWhile p (l1 ++ a :: l2) = l1 := by
  rw [List.takeWhile_append_of_pos h1, List.takeWhile_cons_of_neg (by simp [h2]),
    List.append_nil]

theorem toolFilePat_compose (vs series arch : GoString) (hvs : matchDotted vs = true)
    (hvd : '-' ∉ vs) (hs0 : series ≠ []) (hsd : '-' ∉ series) (ha0 : arch ≠ [])
    (had : '-' ∉ arch) :
    toolFilePat (toolPrefix ++ vs ++ "-".toList ++ series ++ "-".toList ++ arch ++ ".tgz".toList) =
      some (vs, series, arch) := by
  have hshape : toolPrefix ++ vs ++ "-".toList ++ series ++ "-".toList ++ arch ++ ".tgz".toList =
      toolPrefix ++ (vs ++ '-' :: (series ++ '-' :: (arch ++ ".tgz".toList))) := by
    have : "-".toList = ['-'] := rfl
    rw [this]
    simp only [List.append_assoc, List.singleton_append, List.cons_append, List.nil_append]
  have hp1 : ∀ a ∈ vs, (fun c : Char => decide (c ≠ '-')) a = true := by
    intro a ha
    simp only [decide_eq_true_eq]
    rintro rfl
    exact hvd ha
  have hp2 : ∀ a ∈ series, (fun c : Char => decide (c ≠ '-')) a = true := by
    intro a ha
    simp only [decide_eq_true_eq]
    rintro rfl
    exact hsd ha
  have hp3 : ∀ a ∈ arch ++ ".tgz".toList, (fun c : Char => decide (c ≠ '-')) a = true := by
    intro a ha
    simp only [decide_eq_true_eq]
    rintro rfl
    rcases List.mem_append.mp ha with h | h
    · exact had h
    · exact absurd h (by decide)
  have hneg : (fun c : Char => decide (c ≠ '-')) '-' = false := by decide
  have htake : (arch ++ ".tgz".toList).take ((arch ++ ".tgz".toList).length - 4) = arch := by
    have hlen : (arch ++ ".tgz".toList).length - 4 = arch.length := by
      rw [List.length_append]
      have : (".tgz".toList).length = 4 := rfl
      omega
    rw [hlen, List.take_left']
    rfl
  have hall : (arch ++ ".tgz".toList).all (fun c => decide (c ≠ '-')) = true := by
    rw [List.all_eq_true]
    exact hp3
  have hs0b : series.isEmpty = false := by
    cases series with
    | nil => exact absurd rfl hs0
    | cons a l => rfl
  have ha0b : arch.isEmpty = false := by
    cases arch with
    | nil => exact absurd rfl ha0
    | cons a l => rfl
  rw [hshape]
  unfold toolFilePat
  rw [if_pos (hasPrefix_append _ _), List.drop_left' rfl]
  simp only []
  rw [dropWhile_upto _ vs '-' _ hp1 hneg]
  simp only []
  rw [dropWhile_upto _ series '-' _ hp2 hneg]
  simp only []
  rw [takeWhile_upto _ vs '-' _ hp1 hneg, takeWhile_upto _ series '-' _ hp2 hneg,
    htake, hvs, hs0b, ha0b, hall, hasSuffix_append]
  rfl

theorem hasPrefix_toolsPath (R : Runtime) (v : Version) (series arch : GoString)
    (hstr : R.VersionString v = dottedString v) :
    hasPrefix (toolsPathForVersion R v series arch)
      (toolPrefix ++ formatInt v.Major ++ ".".toList) = true := by
  unfold toolsPathForVersion
  rw [hstr]
  unfold dottedString
  simp only [List.append_assoc]
  rw [← List.append_assoc, ← List.append_assoc, ← List.append_assoc toolPrefix]
  exact hasPrefix_append _ _

end Environs


namespace Environs

theorem compatibleVersion_toolsPath (R : Runtime)
    (hstr : R.VersionString R.Current = dottedString R.Current)
    (h1 : 0 ≤ R.Current.Major) (h2 : 0 ≤ R.Current.Minor) (h3 : 0 ≤ R.Current.Patch)
    (hparse : R.Parse (R.VersionString R.Current) = some R.Current)
    (ha0 : currentArch R ≠ []) (had : '-' ∉ currentArch R) :
    compatibleVersion R (toolsPath R) = some R.Current := by
  obtain ⟨hm, hd⟩ := dottedString_spec R.Current h1 h2 h3
  have hpat : toolFilePat (toolsPath R) =
      some (R.VersionString R.Current, currentSeries, currentArch R) := by
    unfold toolsPath toolsPathForVersion
    rw [hstr]
    exact toolFilePat_compose _ _ _ hm hd (by decide) (by decide) ha0 had
  simp [compatibleVersion, hpat, hparse]

/-! ## Claim on the legacy naming round trip -/

/-- C20 (counterexample). For the version with Major -1, the value `findToolsPath` itself
starts from, `toolsPathForVersion` gives `tools/juju--1.0.0-precise-amd64.tgz`, which
`toolFilePat` does not match. -/
theorem toolsPath_round_trip_counterexample :
    toolsPathForVersion sampleRuntime { Major := -1, Minor := 0, Patch := 0 } currentSeries
        "amd64".toList = "tools/juju--1.0.0-precise-amd64.tgz".toList ∧
      currentSeries ≠ [] ∧ '-' ∉ currentSeries ∧
      "amd64".toList ≠ [] ∧ '-' ∉ "amd64".toList ∧
      toolFilePat (toolsPathForVersion sampleRuntime { Major := -1, Minor := 0, Patch := 0 }
        currentSeries "amd64".toList) = none := by
  decide

/-- C20 (amended). Legacy upload-then-find round trip, `Version.String` giving
`<major>.<minor>.<patch>`: for every version whose Major, Minor and Patch are not negative
and every non-empty series and arch holding no dash, `toolsPathForVersion(v, series,
arch)` is matched by `toolFilePat` with captures (`v.String()`, series, arch) and starts
with `tools/juju-<v.Major>.`; consequently, when `version.Current` is such a version that
`version.Parse` reads back from its string and `currentArch` is non-empty and holds no
dash, `findToolsPath` on a store whose only object is `toolsPath` returns exactly
`toolsPath`. -/
theorem toolsPath_round_trip (R : Runtime) (v : Version) (series arch : GoString)
    (hstr : ∀ w, R.VersionString w = dottedString w)
    (hv : 0 ≤ v.Major ∧ 0 ≤ v.Minor ∧ 0 ≤ v.Patch)
    (hs0 : series ≠ []) (hsd : '-' ∉ series) (ha0 : arch ≠ []) (had : '-' ∉ arch) :
    toolFilePat (toolsPathForVersion R v series arch) =
        some (R.VersionString v, series, arch) ∧
      hasPrefix (toolsPathForVersion R v series arch)
        (toolPrefix ++ formatInt v.Major ++ ".".toList) = true ∧
      (0 ≤ R.Current.Major → 0 ≤ R.Current.Minor → 0 ≤ R.Current.Patch →
        R.Parse (R.VersionString R.Current) = some R.Current →
        currentArch R ≠ [] → '-' ∉ currentArch R →
        ∀ content : Stream,
          findToolsPath R (storeHolding [toolsPath R] content) = Except.ok (toolsPath R)) := by
  refine ⟨?_, hasPrefix_toolsPath R v series arch (hstr v), ?_⟩
  · obtain ⟨hm, hd⟩ := dottedString_spec v hv.1 hv.2.1 hv.2.2
    unfold toolsPathForVersion
    rw [hstr v]
    exact toolFilePat_compose _ _ _ hm hd hs0 hsd ha0 had
  · intro h1 h2 h3 hparse hc0 hcd content
    have hpre := hasPrefix_toolsPath R R.Current currentSeries (currentArch R) (hstr R.Current)
    have hl : (storeHolding [toolsPath R] content).List
        (toolPrefix ++ formatInt R.Current.Major ++ ".".toList) = Except.ok [toolsPath R] := by
      unfold storeHolding
      simp only [List.filter_cons, List.filter_nil]
      unfold toolsPath
      rw [hpre]
      rfl
    have hcv := compatibleVersion_toolsPath R (hstr R.Current) h1 h2 h3 hparse hc0 hcd
    rw [findToolsPath_eq R _ [toolsPath R] hl, if_neg (by simp), bestLoop_cons, hcv]
    simp only []
    rw [if_pos (initial_Less R h1 _ _ hcv)]
    simp only [bestLoop]
    rw [if_neg (by omega)]

theorem toolsPath_round_trip_witness :
    toolFilePat (toolsPathForVersion releaseRuntime { Major := 1, Minor := 10, Patch := 0 }
        "precise".toList "amd64".toList) =
      some ("1.10.0".toList, "precise".toList, "amd64".toList) ∧
    findToolsPath releaseRuntime
        (storeHolding [toolsPath releaseRuntime] (sampleArchive "jujud")) =
      Except.ok "tools/juju-1.2.3-precise-amd64.tgz".toList :=
  ⟨(toolsPath_round_trip releaseRuntime { Major := 1, Minor := 10, Patch := 0 }
      "precise".toList "amd64".toList (fun _ => rfl) (by decide) (by decide) (by decide)
      (by decide) (by decide)).1,
    (toolsPath_round_trip releaseRuntime { Major := 1, Minor := 10, Patch := 0 }
      "precise".toList "amd64".toList (fun _ => rfl) (by decide) (by decide) (by decide)
      (by decide) (by decide)).2.2 (by decide) (by decide) (by decide) (by decide) (by decide)
      (by decide) (sampleArchive "jujud")⟩

end Environs

end Juju
